import Mathlib

/-!
Verification development for the graphql-import bundler.

The development shallowly embeds the three core subsystems of the package:

* the import-line parser and SDL import scanner (src/index.ts,
  parseImportLine / parseSDL), including a faithful model of the
  backtracking semantics of the anchored JavaScript regular expression;
* the recursive collector (src/index.ts, collectDefinitions /
  filterImportedDefinitions / filterTypeDefinitions), modelled over an
  explicit store of AST nodes so that the in-place field mutations of the
  JavaScript implementation are observable;
* the type-graph closure engine (src/definition.ts,
  completeDefinitionPool / collectNewTypeDefinitions / collectNode /
  collectDirective / getNamedType).

JavaScript functions that can recurse without bound are given an explicit
fuel parameter; running out of fuel is the distinguished error
CollectError.fuelOut, and every other error carries the message the
JavaScript implementation throws.  The SDL text parser and the printer are
external collaborators of the repository (spec section 1) and are
represented by a function parameter respectively by returning the final
definition list.
-/

/-- Decidable equality on Except, used to evaluate the model on concrete
inputs. -/
instance {ε α : Type} [DecidableEq ε] [DecidableEq α] :
    DecidableEq (Except ε α)
  | .ok a, .ok b =>
      if h : a = b then .isTrue (by rw [h]) else .isFalse (by simp [h])
  | .error a, .error b =>
      if h : a = b then .isTrue (by rw [h]) else .isFalse (by simp [h])
  | .ok _, .error _ => .isFalse (by simp)
  | .error _, .ok _ => .isFalse (by simp)

namespace GraphQLImport

/-- Model of the graphql TypeNode: a type expression is a named leaf or a
list / non-null wrapper. -/
inductive TypeNode where
  | namedType (name : String)
  | listType (ofType : TypeNode)
  | nonNullType (ofType : TypeNode)
deriving DecidableEq, Repr

/-- Model of a DirectiveNode, the application of a directive.  The source
only ever reads the name of an applied directive (collectDirective in
src/definition.ts); the constant argument values are never inspected and
are omitted. -/
structure DirectiveNode where
  name : String
deriving DecidableEq, Repr

/-- Model of InputValueDefinitionNode: an argument or input-object field
with a name, a type expression and applied directives. -/
structure InputValueDefinitionNode where
  name : String
  type : TypeNode
  directives : List DirectiveNode
deriving DecidableEq, Repr

/-- Model of FieldDefinitionNode: a field with a name, arguments, a type
expression and applied directives. -/
structure FieldDefinitionNode where
  name : String
  arguments : List InputValueDefinitionNode
  type : TypeNode
  directives : List DirectiveNode
deriving DecidableEq, Repr

/-- Model of EnumValueDefinitionNode: an enum value with its applied
directives. -/
structure EnumValueDefinitionNode where
  name : String
  directives : List DirectiveNode
deriving DecidableEq, Repr

/-- Model of the ValidDefinitionNode union of src/definition.ts: one
constructor per admissible AST definition kind (DirectiveDefinition,
ScalarTypeDefinition, ObjectTypeDefinition, InterfaceTypeDefinition,
EnumTypeDefinition, UnionTypeDefinition, InputObjectTypeDefinition).
Object types carry their implemented interface names, union types their
member type names, exactly the parts of the AST nodes the source reads. -/
inductive ValidDefinitionNode where
  | directiveDef (name : String) (arguments : List InputValueDefinitionNode)
  | scalarDef (name : String) (directives : List DirectiveNode)
  | objectDef (name : String) (interfaces : List String)
      (directives : List DirectiveNode) (fields : List FieldDefinitionNode)
  | interfaceDef (name : String) (directives : List DirectiveNode)
      (fields : List FieldDefinitionNode)
  | unionDef (name : String) (directives : List DirectiveNode)
      (types : List String)
  | enumDef (name : String) (directives : List DirectiveNode)
      (values : List EnumValueDefinitionNode)
  | inputObjectDef (name : String) (directives : List DirectiveNode)
      (fields : List InputValueDefinitionNode)
deriving DecidableEq, Repr

instance : Inhabited ValidDefinitionNode :=
  ⟨.scalarDef "" []⟩

/-- The name of a definition (the field name.value of every AST node kind). -/
def ValidDefinitionNode.name : ValidDefinitionNode → String
  | .directiveDef n _ => n
  | .scalarDef n _ => n
  | .objectDef n _ _ _ => n
  | .interfaceDef n _ _ => n
  | .unionDef n _ _ => n
  | .enumDef n _ _ => n
  | .inputObjectDef n _ _ => n

/-- Whether a definition is an ObjectTypeDefinition (kind check of the
source). -/
def ValidDefinitionNode.isObject : ValidDefinitionNode → Bool
  | .objectDef _ _ _ _ => true
  | _ => false

/-- Whether a definition is an InterfaceTypeDefinition. -/
def ValidDefinitionNode.isInterface : ValidDefinitionNode → Bool
  | .interfaceDef _ _ _ => true
  | _ => false

/-- Whether an object definition lists the given interface name among its
implemented interfaces (the test d.interfaces.some in src/definition.ts). -/
def ValidDefinitionNode.implementsInterface
    (d : ValidDefinitionNode) (n : String) : Bool :=
  match d with
  | .objectDef _ interfaces _ _ => interfaces.contains n
  | _ => false

/-- The builtinTypes constant of src/definition.ts. -/
def builtinTypes : List String :=
  ["String", "Float", "Int", "Boolean", "ID"]

/-- The builtinDirectives constant of src/definition.ts. -/
def builtinDirectives : List String :=
  ["deprecated", "skip", "include"]

/-- The rootFields constant of src/index.ts. -/
def rootFields : List String :=
  ["Query", "Mutation", "Subscription"]

/-- getNamedType of src/definition.ts, flattened to return the name of the
named leaf reached after descending through list and non-null wrappers. -/
def getNamedType : TypeNode → String
  | .namedType n => n
  | .listType t => getNamedType t
  | .nonNullType t => getNamedType t

/-- Lookup in the schemaMap built by keyBy(allDefinitions, d.name.value):
lodash keyBy lets a later definition with an equal name overwrite an
earlier one, so the map sends a name to the last definition carrying it. -/
def lookupDef (allDefinitions : List ValidDefinitionNode) (n : String) :
    Option ValidDefinitionNode :=
  allDefinitions.reverse.find? (fun d => d.name = n)

/-- Deduplication by name keeping the first occurrence, the behaviour of
lodash uniqBy(pool, name.value) in completeDefinitionPool: an element is
kept exactly when its name has not been seen earlier in the list. -/
def uniqByNameAux (seen : List String) :
    List ValidDefinitionNode → List ValidDefinitionNode
  | [] => []
  | d :: rest =>
      if d.name ∈ seen then uniqByNameAux seen rest
      else d :: uniqByNameAux (d.name :: seen) rest

/-- uniqBy(pool, name.value) of completeDefinitionPool. -/
def uniqByName (l : List ValidDefinitionNode) : List ValidDefinitionNode :=
  uniqByNameAux [] l

/-- Error outcome of a fuelled computation: fuelOut marks exhaustion of the
fuel that stands in for the unbounded JavaScript call stack, err carries
the message of a thrown Error. -/
inductive CollectError where
  | fuelOut
  | err (msg : String)
deriving DecidableEq, Repr

/-- The apostrophe character, written by code point to keep string literals
plain. -/
def apos : String :=
  String.singleton (Char.ofNat 39)

/-- The error message thrown by collectNode of src/definition.ts when a
referenced named type is resolvable neither in the pool nor in the schema
map. -/
def missingTypeMsg (fieldName typeName : String) : String :=
  "Field " ++ fieldName ++ ": Couldn" ++ apos ++ "t find type " ++ typeName
    ++ " in any of the schemas."

/-- The error message thrown by collectDirective of src/definition.ts. -/
def missingDirectiveMsg (directiveName : String) : String :=
  "Directive " ++ directiveName ++ ": Couldn" ++ apos ++ "t find type "
    ++ directiveName ++ " in any of the schemas."

/-- The error message thrown for an unresolvable union member. -/
def missingUnionMemberMsg (typeName : String) : String :=
  "Couldn" ++ apos ++ "t find type " ++ typeName ++ " in any of the schemas."

/-- The error message thrown for an unresolvable implemented interface. -/
def missingInterfaceMsg (interfaceName : String) : String :=
  "Couldn" ++ apos ++ "t find interface " ++ interfaceName
    ++ " in any of the schemas."

/-- Stands for the TypeError the JavaScript engine raises when the
unchecked cast of schemaMap[directiveName] to DirectiveDefinitionNode in
collectDirective hits a non-directive definition, whose arguments property
is undefined. -/
def undefinedArgumentsMsg : String :=
  "TypeError: directive.arguments is undefined"

mutual

/-- collectNode, the inner helper of collectNewTypeDefinitions
(src/definition.ts): resolves the named leaf type of a field or input
value against the definition pool, the builtin types and the schema map,
then collects the applied directives of the node.  The returned list holds
the definitions pushed onto newTypeDefinitions, in push order.  The node
is passed as its three read components (name.value, type, directives). -/
def collectNode (fuel : Nat)
    (definitionPool allDefinitions : List ValidDefinitionNode)
    (nodeName : String) (nodeType : TypeNode)
    (nodeDirectives : List DirectiveNode) :
    Except CollectError (List ValidDefinitionNode) :=
  match fuel with
  | 0 => .error .fuelOut
  | f + 1 =>
      let nodeTypeName := getNamedType nodeType
      let typePush :
          Except CollectError (List ValidDefinitionNode) :=
        if definitionPool.any (fun d => d.name = nodeTypeName)
            || builtinTypes.contains nodeTypeName then
          .ok []
        else
          match lookupDef allDefinitions nodeTypeName with
          | none => .error (.err (missingTypeMsg nodeName nodeTypeName))
          | some argTypeMatch => .ok [argTypeMatch]
      match typePush with
      | .error e => .error e
      | .ok tp =>
          match collectDirectives f definitionPool allDefinitions
              nodeDirectives with
          | .error e => .error e
          | .ok dp => .ok (tp ++ dp)

/-- Iteration of collectDirective over node.directives.forEach.  Each
step consumes one unit of fuel so that the mutual recursion is structural
on fuel and the kernel can evaluate the model. -/
def collectDirectives :
    Nat → List ValidDefinitionNode → List ValidDefinitionNode →
      List DirectiveNode → Except CollectError (List ValidDefinitionNode)
  | _, _, _, [] => .ok []
  | 0, _, _, _ :: _ => .error .fuelOut
  | f + 1, definitionPool, allDefinitions, d :: ds =>
      match collectDirective f definitionPool allDefinitions d with
      | .error e => .error e
      | .ok l =>
          match collectDirectives f definitionPool allDefinitions ds with
          | .error e => .error e
          | .ok r => .ok (l ++ r)

/-- collectDirective of collectNewTypeDefinitions (src/definition.ts):
when the applied directive is neither in the pool nor builtin, its
definition is looked up in the schema map, the argument input types of
that definition are collected through collectNode, and the definition
itself is pushed last. -/
def collectDirective (fuel : Nat)
    (definitionPool allDefinitions : List ValidDefinitionNode)
    (directive : DirectiveNode) :
    Except CollectError (List ValidDefinitionNode) :=
  match fuel with
  | 0 => .error .fuelOut
  | f + 1 =>
      let directiveName := directive.name
      if definitionPool.any (fun d => d.name = directiveName)
          || builtinDirectives.contains directiveName then
        .ok []
      else
        match lookupDef allDefinitions directiveName with
        | none => .error (.err (missingDirectiveMsg directiveName))
        | some dirDef =>
            match dirDef with
            | .directiveDef n args =>
                match collectInputValues f definitionPool allDefinitions
                    args with
                | .error e => .error e
                | .ok collected =>
                    .ok (collected ++ [.directiveDef n args])
            | _ => .error (.err undefinedArgumentsMsg)

/-- Iteration of collectNode over a list of InputValueDefinitionNode
(directive definition arguments and input object fields), consuming one
unit of fuel per element. -/
def collectInputValues :
    Nat → List ValidDefinitionNode → List ValidDefinitionNode →
      List InputValueDefinitionNode →
      Except CollectError (List ValidDefinitionNode)
  | _, _, _, [] => .ok []
  | 0, _, _, _ :: _ => .error .fuelOut
  | f + 1, definitionPool, allDefinitions, v :: vs =>
      match collectNode f definitionPool allDefinitions v.name v.type
          v.directives with
      | .error e => .error e
      | .ok l =>
          match collectInputValues f definitionPool allDefinitions vs with
          | .error e => .error e
          | .ok r => .ok (l ++ r)

end

/-- The union branch of collectNewTypeDefinitions: each member type name
absent from the pool is resolved through the schema map and pushed, with
no builtin exemption (the source checks only the pool before the lookup). -/
def collectUnionMembers
    (definitionPool allDefinitions : List ValidDefinitionNode) :
    List String → Except CollectError (List ValidDefinitionNode)
  | [] => .ok []
  | t :: ts =>
      if definitionPool.any (fun d => d.name = t) then
        collectUnionMembers definitionPool allDefinitions ts
      else
        match lookupDef allDefinitions t with
        | none => .error (.err (missingUnionMemberMsg t))
        | some typeMatch =>
            match collectUnionMembers definitionPool allDefinitions ts with
            | .error e => .error e
            | .ok r => .ok (typeMatch :: r)

/-- The implemented-interfaces loop of the object branch of
collectNewTypeDefinitions. -/
def collectObjectInterfaces
    (definitionPool allDefinitions : List ValidDefinitionNode) :
    List String → Except CollectError (List ValidDefinitionNode)
  | [] => .ok []
  | i :: is =>
      if definitionPool.any (fun d => d.name = i) then
        collectObjectInterfaces definitionPool allDefinitions is
      else
        match lookupDef allDefinitions i with
        | none => .error (.err (missingInterfaceMsg i))
        | some interfaceMatch =>
            match collectObjectInterfaces definitionPool allDefinitions is with
            | .error e => .error e
            | .ok r => .ok (interfaceMatch :: r)

/-- The fields loop of the interface branch of collectNewTypeDefinitions:
each field goes through collectNode; the source does not visit the
arguments of interface fields. -/
def collectInterfaceFields (fuel : Nat)
    (definitionPool allDefinitions : List ValidDefinitionNode) :
    List FieldDefinitionNode → Except CollectError (List ValidDefinitionNode)
  | [] => .ok []
  | fld :: rest =>
      match collectNode fuel definitionPool allDefinitions fld.name fld.type
          fld.directives with
      | .error e => .error e
      | .ok l =>
          match collectInterfaceFields fuel definitionPool allDefinitions
              rest with
          | .error e => .error e
          | .ok r => .ok (l ++ r)

/-- The fields loop of the object branch of collectNewTypeDefinitions:
each field goes through collectNode and then every argument of the field
goes through collectNode as well. -/
def collectObjectFields (fuel : Nat)
    (definitionPool allDefinitions : List ValidDefinitionNode) :
    List FieldDefinitionNode → Except CollectError (List ValidDefinitionNode)
  | [] => .ok []
  | fld :: rest =>
      match collectNode fuel definitionPool allDefinitions fld.name fld.type
          fld.directives with
      | .error e => .error e
      | .ok l =>
          match collectInputValues fuel definitionPool allDefinitions
              fld.arguments with
          | .error e => .error e
          | .ok a =>
              match collectObjectFields fuel definitionPool allDefinitions
                  rest with
              | .error e => .error e
              | .ok r => .ok (l ++ a ++ r)

/-- collectNewTypeDefinitions of src/definition.ts.  The sequential kind
tests of the source are rendered as one match per constructor; in every
branch the directives loop of the source (run for every kind except
DirectiveDefinition) comes first, so the returned list reproduces the push
order onto newTypeDefinitions. -/
def collectNewTypeDefinitions (fuel : Nat)
    (allDefinitions definitionPool : List ValidDefinitionNode)
    (newDefinition : ValidDefinitionNode) :
    Except CollectError (List ValidDefinitionNode) :=
  match newDefinition with
  | .directiveDef _ _ => .ok []
  | .scalarDef _ directives =>
      collectDirectives fuel definitionPool allDefinitions directives
  | .enumDef _ directives _ =>
      collectDirectives fuel definitionPool allDefinitions directives
  | .inputObjectDef _ directives fields =>
      match collectDirectives fuel definitionPool allDefinitions
          directives with
      | .error e => .error e
      | .ok dl =>
          match collectInputValues fuel definitionPool allDefinitions
              fields with
          | .error e => .error e
          | .ok fl => .ok (dl ++ fl)
  | .interfaceDef interfaceName directives fields =>
      match collectDirectives fuel definitionPool allDefinitions
          directives with
      | .error e => .error e
      | .ok dl =>
          match collectInterfaceFields fuel definitionPool allDefinitions
              fields with
          | .error e => .error e
          | .ok fl =>
              let interfaceImplementations := allDefinitions.filter
                (fun d => d.isObject && d.implementsInterface interfaceName)
              .ok (dl ++ fl ++ interfaceImplementations)
  | .unionDef _ directives types =>
      match collectDirectives fuel definitionPool allDefinitions
          directives with
      | .error e => .error e
      | .ok dl =>
          match collectUnionMembers definitionPool allDefinitions types with
          | .error e => .error e
          | .ok tl => .ok (dl ++ tl)
  | .objectDef _ interfaces directives fields =>
      match collectDirectives fuel definitionPool allDefinitions
          directives with
      | .error e => .error e
      | .ok dl =>
          match collectObjectInterfaces definitionPool allDefinitions
              interfaces with
          | .error e => .error e
          | .ok il =>
              match collectObjectFields fuel definitionPool allDefinitions
                  fields with
              | .error e => .error e
              | .ok fl => .ok (dl ++ il ++ fl)

/-- The while loop of completeDefinitionPool (src/definition.ts), returning
the grown definition pool before the final deduplication.  The work list
newTypeDefinitions is shifted from the front; definitions collected for an
unvisited head are appended to both the pool and the work list, and the
head name is marked visited.  The arrays of the source are threaded as
explicit state; the schema map rebuilt from allDefinitions on every
iteration is rendered by lookupDef on the unchanged allDefinitions list. -/
def completePoolLoop (fuel : Nat)
    (allDefinitions : List ValidDefinitionNode) :
    List ValidDefinitionNode → List ValidDefinitionNode → List String →
      Except CollectError (List ValidDefinitionNode)
  | definitionPool, [], _ => .ok definitionPool
  | definitionPool, newDefinition :: rest, visitedDefinitions =>
      match fuel with
      | 0 => .error .fuelOut
      | f + 1 =>
          if visitedDefinitions.contains newDefinition.name then
            completePoolLoop f allDefinitions definitionPool rest
              visitedDefinitions
          else
            match collectNewTypeDefinitions f allDefinitions definitionPool
                newDefinition with
            | .error e => .error e
            | .ok collectedTypedDefinitions =>
                completePoolLoop f allDefinitions
                  (definitionPool ++ collectedTypedDefinitions)
                  (rest ++ collectedTypedDefinitions)
                  (newDefinition.name :: visitedDefinitions)

/-- completeDefinitionPool of src/definition.ts: run the work-list loop
from the given pool and work list, then deduplicate the grown pool by
name. -/
def completeDefinitionPool (fuel : Nat)
    (allDefinitions definitionPool newTypeDefinitions :
      List ValidDefinitionNode) :
    Except CollectError (List ValidDefinitionNode) :=
  match completePoolLoop fuel allDefinitions definitionPool
      newTypeDefinitions [] with
  | .error e => .error e
  | .ok pool => .ok (uniqByName pool)

/-! ## Import line parser

parseImportLine of src/index.ts matches the anchored JavaScript regular
expression ImportRegex below against the whole line:

  ImportRegex: anchored, groups numbered as in the source
    group 1:  star or any characters (greedy, no line terminators)
    group 2:  the inner any-characters alternative of group 1
    group 3:  one quote character, single or double
    group 4:  any characters (greedy, no line terminators)
    group 5:  one quote character, single or double
  followed by an optional semicolon and the end of the line.

The model reproduces the backtracking search order of the JavaScript
engine: the star alternative of group 1 is tried first; the greedy
any-characters groups cause the rightmost split at the literal
space-from-space and the longest possible group 4 to win. -/

/-- JavaScript String.prototype.split with a one-character separator,
implemented over the character list so that the kernel can evaluate it
(every split in the source uses a one-character separator). -/
def splitChars (sep : Char) : List Char → List (List Char)
  | [] => [[]]
  | c :: cs =>
      match splitChars sep cs with
      | [] => [[c]]
      | h :: t => if c = sep then [] :: h :: t else (c :: h) :: t

/-- String.prototype.split with a one-character separator. -/
def splitOnChar (sep : Char) (s : String) : List String :=
  (splitChars sep s.data).map String.mk

/-- The whitespace class of String.prototype.trim, restricted to the ASCII
whitespace appearing in SDL sources. -/
def isSpaceChar (c : Char) : Bool :=
  c = ' ' || c = Char.ofNat 9 || c = Char.ofNat 10 || c = Char.ofNat 13

/-- String.prototype.trim over the character list. -/
def trimStr (s : String) : String :=
  String.mk (((s.data.dropWhile isSpaceChar).reverse.dropWhile
    isSpaceChar).reverse)

/-- Drop the first n characters of a string (String.mk keeps the model
kernel-evaluable). -/
def dropStr (n : Nat) (s : String) : String :=
  String.mk (s.data.drop n)

/-- String.prototype.startsWith over the character lists. -/
def startsWithStr (p s : String) : Bool :=
  p.data.isPrefixOf s.data

/-- The RawModule interface of src/index.ts.  The field named from in the
source is called fromTarget here because from is a reserved word of
Lean. -/
structure RawModule where
  imports : List String
  fromTarget : String
deriving DecidableEq, Repr

/-- A quote character of the regular expression: single or double quote. -/
def isQuoteChar (c : Char) : Bool :=
  c = Char.ofNat 39 || c = '"'

/-- A character matched by the dot of a JavaScript regular expression
without the dotAll flag: anything except the four line terminators. -/
def dotChar (c : Char) : Bool :=
  !(c = Char.ofNat 10 || c = Char.ofNat 13 || c = Char.ofNat 0x2028
    || c = Char.ofNat 0x2029)

/-- The literal space-from-space of the regular expression. -/
def fromLit : List Char :=
  " from ".toList

/-- Match of the sub-pattern consisting of group 4, group 5 and the
optional semicolon against the rest of the line after group 3.  The greedy
group 4 takes everything up to a closing quote in the last position; only
when the last character is a semicolon may the closing quote sit one
position earlier.  Returns group 4 and group 5. -/
def matchTailRest (rest : List Char) : Option (String × Char) :=
  match rest.reverse with
  | [] => none
  | last :: revInit =>
      if isQuoteChar last && revInit.reverse.all dotChar then
        some (String.mk revInit.reverse, last)
      else if last = ';' then
        match revInit with
        | [] => none
        | q2 :: revInit2 =>
            if isQuoteChar q2 && revInit2.reverse.all dotChar then
              some (String.mk revInit2.reverse, q2)
            else none
      else none

/-- Match of the quoted tail of the regular expression (groups 3 to 5 and
the optional semicolon) against the characters after the literal
space-from-space.  Returns groups 3, 4 and 5. -/
def matchTail (t : List Char) : Option (Char × String × Char) :=
  match t with
  | [] => none
  | q1 :: rest =>
      if isQuoteChar q1 then
        match matchTailRest rest with
      | none => none
      | some (g4, q2) => some (q1, g4, q2)
      else none

/-- The star alternative of group 1: the character after the leading
literal must be a star immediately followed by the literal space-from-space
and a matching quoted tail. -/
def wildcardMatch (r : List Char) : Option (Char × String × Char) :=
  match r with
  | [] => none
  | c :: rest =>
      if c = '*' && fromLit.isPrefixOf rest then matchTail (rest.drop 6)
      else none

/-- The any-characters alternative of group 1: the greedy group 2 makes
the engine try every split of the remainder at the literal
space-from-space from the rightmost to the leftmost, keeping the first
whose left part contains no line terminator and whose right part matches
the quoted tail.  Returns groups 2, 3, 4 and 5. -/
def generalMatch (r : List Char) : Option (String × Char × String × Char) :=
  ((List.range (r.length + 1)).reverse).findSome? (fun i =>
    let pre := r.take i
    let post := r.drop i
    if pre.all dotChar && fromLit.isPrefixOf post then
      match matchTail (post.drop 6) with
      | some (q1, s, q2) => some (String.mk pre, q1, s, q2)
      | none => none
    else none)

/-- The groups of a successful match of the import-line regular
expression.  wildcard is group 1 (the text matched by the
alternation), importsString is group 2 (undefined when the star alternative matched),
fromTarget is group 4. -/
structure ImportLineMatch where
  wildcard : String
  importsString : Option String
  openQuote : Char
  fromTarget : String
  closeQuote : Char
deriving DecidableEq, Repr

/-- The full anchored match of the import-line regular expression of
parseImportLine (src/index.ts). -/
def regexImportMatch (importLine : String) : Option ImportLineMatch :=
  let cs := importLine.toList
  if ("import ".toList).isPrefixOf cs then
    let r := cs.drop 7
    match wildcardMatch r with
    | some (q1, s, q2) =>
        some { wildcard := "*", importsString := none, openQuote := q1,
               fromTarget := s, closeQuote := q2 }
    | none =>
        match generalMatch r with
        | some (g2, q1, s, q2) =>
            some { wildcard := g2, importsString := some g2, openQuote := q1,
                   fromTarget := s, closeQuote := q2 }
        | none => none
  else none

/-- parseImportLine of src/index.ts: fail when the regular expression does
not match or when group 4 (the source string between the quotes) is empty;
otherwise build the RawModule, splitting the name list on commas and
trimming each name unless the star alternative matched. -/
def parseImportLine (importLine : String) : Except String RawModule :=
  match regexImportMatch importLine with
  | none => .error "Too few regex matches: null"
  | some m =>
      if m.fromTarget = "" then .error "Too few regex matches"
      else
        let imports :=
          if m.wildcard = "*" then ["*"]
          else (splitOnChar ',' (m.importsString.getD "")).map trimStr
        .ok { imports := imports, fromTarget := m.fromTarget }

/-- parseSDL of src/index.ts: split the SDL on newlines, trim, keep the
lines starting with the two import-comment spellings, strip the leading
hash (the replace of the source removes the first hash of the line, which
is its first character on every kept line) and parse each resulting import
line. -/
def parseSDL (sdl : String) : Except String (List RawModule) :=
  (((splitOnChar (Char.ofNat 10) sdl).map trimStr
    |>.filter (fun l =>
        startsWithStr "# import " l || startsWithStr "#import " l))
    |>.map (fun l => trimStr (dropStr 1 l))).mapM parseImportLine

/-! ## Recursive collector

collectDefinitions of src/index.ts mutates shared arrays and the AST nodes
inside them.  The model makes the sharing explicit: AST definition nodes
live in a store (a list indexed by allocation order), the accumulators
allDefinitions and typeDefinitions hold store indices, and the in-place
field mutation of filterImportedDefinitions becomes a store update, so a
change made through one accumulator is observable through every other list
holding the same index.  The external SDL text parser is a function
parameter; the model covers logical in-memory sources, for which the
source resolves import targets verbatim (the filesystem canonicalization
applies only when both the importing and the imported name end in
.graphql, spec section 4.C). -/

/-- An entry of document.definitions: either an admissible definition,
held in the store at the given index, or a definition of another kind
(schema definition, operation, fragment, extension), which
filterTypeDefinitions discards. -/
inductive DefinitionEntry where
  | valid (i : Nat)
  | other (kind : String)
deriving DecidableEq, Repr

/-- A parsed document definition by value, before store allocation. -/
inductive DocDefinitionNode where
  | valid (v : ValidDefinitionNode)
  | other (kind : String)
deriving DecidableEq, Repr

/-- Read a definition node from the store. -/
def getDef (store : List ValidDefinitionNode) (i : Nat) :
    ValidDefinitionNode :=
  store.getD i default

/-- Overwrite a definition node in the store (an in-place mutation of the
JavaScript AST node). -/
def setDef (store : List ValidDefinitionNode) (i : Nat)
    (d : ValidDefinitionNode) : List ValidDefinitionNode :=
  store.set i d

/-- filterTypeDefinitions of src/index.ts over store entries: keep the
admissible kinds, in order. -/
def filterTypeDefinitionsIdx (definitions : List DefinitionEntry) :
    List Nat :=
  definitions.filterMap (fun e =>
    match e with
    | .valid i => some i
    | .other _ => none)

/-- The head of a dotted import selector: i.split(dot)[0]. -/
def splitHead (i : String) : String :=
  (splitOnChar '.' i).headD ""

/-- The field part of a dotted import selector: i.split(dot)[1]. -/
def splitSecond (i : String) : String :=
  (splitOnChar '.' i).getD 1 ""

/-- Whether an import selector is dotted: i.split(dot).length > 1. -/
def hasDot (i : String) : Bool :=
  (splitOnChar '.' i).length > 1

/-- First occurrences of a list of strings, in order; the key order of a
lodash groupBy result. -/
def dedupStringsAux (seen : List String) : List String → List String
  | [] => []
  | x :: xs =>
      if seen.contains x then dedupStringsAux seen xs
      else x :: dedupStringsAux (x :: seen) xs

/-- groupBy(fieldImports, head): association list from head to the
selectors sharing it, keys in first-occurrence order, group elements in
list order. -/
def groupByHead (fieldImports : List String) : List (String × List String) :=
  (dedupStringsAux [] (fieldImports.map splitHead)).map
    (fun k => (k, fieldImports.filter (fun x => splitHead x = k)))

/-- Stands for the TypeError the JavaScript engine raises when
filterImportedDefinitions dereferences the fields property of undefined
(no definition with the selected head name) or of a definition kind
without fields. -/
def undefinedFieldsMsg : String :=
  "TypeError: cannot read fields"

/-- The in-place assignment def.fields = def.fields.filter(...) of
filterImportedDefinitions for the kinds carrying a fields property; for
every other kind the JavaScript engine throws because fields is
undefined. -/
def restrictFields (d : ValidDefinitionNode) (fields : List String) :
    Option ValidDefinitionNode :=
  match d with
  | .objectDef n ifs dirs flds =>
      some (.objectDef n ifs dirs (flds.filter (fun f =>
        fields.contains f.name || fields.contains "*")))
  | .interfaceDef n dirs flds =>
      some (.interfaceDef n dirs (flds.filter (fun f =>
        fields.contains f.name || fields.contains "*")))
  | .inputObjectDef n dirs flds =>
      some (.inputObjectDef n dirs (flds.filter (fun f =>
        fields.contains f.name || fields.contains "*")))
  | _ => none

/-- The for-in loop over groupedFieldImports of
filterImportedDefinitions: for each head, find the first matching
definition among the admissible definitions of the file and overwrite its
field list in place. -/
def applyFieldRestrictions (filteredDefinitions : List Nat) :
    List (String × List String) → List ValidDefinitionNode →
      Except String (List ValidDefinitionNode)
  | [], store => .ok store
  | (rootType, group) :: rest, store =>
      let fields := group.map splitSecond
      match filteredDefinitions.find? (fun i =>
          (getDef store i).name = rootType) with
      | none => .error undefinedFieldsMsg
      | some i =>
          match restrictFields (getDef store i) fields with
          | none => .error undefinedFieldsMsg
          | some d2 => applyFieldRestrictions filteredDefinitions rest
              (setDef store i d2)

/-- filterImportedDefinitions of src/index.ts over the store.  The
typeDefinitions parameter is document.definitions of the current file;
allDefinitions already ends with the entry pushed for the current file.
Returns the kept indices and the store, updated when a dotted selector
restricted a field list in place. -/
def filterImportedDefinitions (imports : List String)
    (typeDefinitions : List DefinitionEntry)
    (allDefinitions : List (List Nat))
    (store : List ValidDefinitionNode) :
    Except String (List Nat × List ValidDefinitionNode) :=
  let filteredDefinitions := filterTypeDefinitionsIdx typeDefinitions
  if imports.contains "*" then
    if imports.length = 1 && imports.headD "" = "*"
        && allDefinitions.length > 1 then
      let previousTypeDefinitions :=
        ((allDefinitions.dropLast).flatten.map (getDef store)).filter
          (fun d => !rootFields.contains d.name)
      .ok (typeDefinitions.filterMap (fun e =>
        match e with
        | .valid i =>
            if (getDef store i).isObject
                && previousTypeDefinitions.any (fun d =>
                    d.name = (getDef store i).name) then
              some i
            else none
        | .other _ => none), store)
    else
      .ok (filteredDefinitions, store)
  else
    let result := filteredDefinitions.filter (fun i =>
      (imports.map splitHead).contains (getDef store i).name)
    let fieldImports := imports.filter hasDot
    let groupedFieldImports := groupByHead fieldImports
    match applyFieldRestrictions filteredDefinitions groupedFieldImports
        store with
    | .error e => .error e
    | .ok store2 => .ok (result, store2)

/-- isFile of src/index.ts. -/
def isFile (f : String) : Bool :=
  (".graphql".data).isSuffixOf f.data

/-- read of src/index.ts for logical in-memory sources: look the name up
in the schemas map supplied by the caller (the fs.readFileSync branch for
.graphql paths is the filesystem collaborator, outside the model). -/
def readSource (schemas : List (String × String)) (schema : String) :
    Option String :=
  (schemas.find? (fun p => p.1 = schema)).map (fun p => p.2)

/-- resolveModuleFilePath of src/index.ts for logical in-memory sources:
the target is returned verbatim (the realpath and module-lookup branch
applies only when both names end in .graphql and touches the
filesystem). -/
def resolveModuleFilePath (filePath importFrom : String) : String :=
  importFrom

/-- isEmptySDL of src/index.ts. -/
def isEmptySDL (sdl : String) : Bool :=
  (((splitOnChar (Char.ofNat 10) sdl).map trimStr).filter (fun l =>
    !(l.length = 0 || startsWithStr "#" l))).length = 0

/-- getDocumentFromSDL of src/index.ts: an effectively empty SDL yields an
empty document, otherwise the external AST parser runs and may fail. -/
def getDocumentFromSDL (parseDoc : String → Option (List DocDefinitionNode))
    (sdl : String) : Option (List DocDefinitionNode) :=
  if isEmptySDL sdl then some [] else parseDoc sdl

/-- Message standing for the GraphQLError of the external AST parser. -/
def parseFailureMsg : String :=
  "GraphQLError: syntax error"

/-- Message standing for the TypeError raised when read returns undefined
for an unknown in-memory source and the undefined SDL is split by
isEmptySDL. -/
def missingSourceMsg : String :=
  "TypeError: cannot read properties of undefined"

/-- Allocate the parsed definitions of a document as fresh nodes at the
end of the store, returning document.definitions as store entries. -/
def allocDoc (store : List ValidDefinitionNode) :
    List DocDefinitionNode → List DefinitionEntry × List ValidDefinitionNode
  | [] => ([], store)
  | .valid v :: rest =>
      match allocDoc (store ++ [v]) rest with
      | (es, st2) => (.valid store.length :: es, st2)
  | .other k :: rest =>
      match allocDoc store rest with
      | (es, st2) => (.other k :: es, st2)

/-- The per-invocation state of collectDefinitions: the node store, the
processedFiles map from canonical source key to the import directives
already followed from it, the two per-file accumulators of store indices,
and a ghost trace recording each (key, directive) pair at the moment it is
registered, used to state that no pair is processed twice.  The trace is
instrumentation only; everything else mirrors the source. -/
structure CollectState where
  store : List ValidDefinitionNode
  processedFiles : List (String × List RawModule)
  typeDefinitions : List (List Nat)
  allDefinitions : List (List Nat)
  trace : List (String × RawModule)
deriving DecidableEq, Repr

/-- Lookup in the processedFiles map. -/
def lookupProcessed (pf : List (String × List RawModule)) (k : String) :
    Option (List RawModule) :=
  (pf.find? (fun p => p.1 = k)).map (fun p => p.2)

/-- Map.set on the processedFiles map. -/
def setProcessed : List (String × List RawModule) → String →
    List RawModule → List (String × List RawModule)
  | [], k, ms => [(k, ms)]
  | (k2, v) :: rest, k, ms =>
      if k2 = k then (k, ms) :: rest
      else (k2, v) :: setProcessed rest k ms

mutual

/-- collectDefinitions of src/index.ts for logical in-memory sources: the
canonical key of such a source is the file path verbatim (path.resolve
applies only to .graphql paths).  The file document is parsed, its
admissible definitions are allocated and pushed onto allDefinitions,
the imported subset is computed by filterImportedDefinitions and pushed onto
typeDefinitions, and every import directive of the file is processed in
order. -/
def collectDefinitions (fuel : Nat)
    (parseDoc : String → Option (List DocDefinitionNode))
    (schemas : List (String × String)) (imports : List String)
    (sdl : String) (filePath : String) (st : CollectState) :
    Except CollectError CollectState :=
  match fuel with
  | 0 => .error .fuelOut
  | f + 1 =>
      let key := filePath
      match getDocumentFromSDL parseDoc sdl with
      | none => .error (.err parseFailureMsg)
      | some docDefs =>
          match allocDoc st.store docDefs with
          | (entries, store1) =>
              let allDefs1 := st.allDefinitions
                ++ [filterTypeDefinitionsIdx entries]
              match filterImportedDefinitions imports entries allDefs1
                  store1 with
              | .error e => .error (.err e)
              | .ok (currentTypeDefinitions, store2) =>
                  match parseSDL sdl with
                  | .error e => .error (.err e)
                  | .ok rawModules =>
                      processModules f parseDoc schemas rawModules key
                        { st with
                          store := store2
                          allDefinitions := allDefs1
                          typeDefinitions :=
                            st.typeDefinitions ++ [currentTypeDefinitions] }

/-- The rawModules.forEach loop of collectDefinitions: a directive equal
to one already followed from the current key is skipped; otherwise it is
registered in processedFiles (and in the ghost trace) and the target is
read and collected recursively. -/
def processModules :
    Nat → (String → Option (List DocDefinitionNode)) →
      List (String × String) → List RawModule → String → CollectState →
      Except CollectError CollectState
  | _, _, _, [], _, st => .ok st
  | 0, _, _, _ :: _, _, _ => .error .fuelOut
  | f + 1, parseDoc, schemas, m :: rest, key, st =>
      let moduleFilePath := resolveModuleFilePath key m.fromTarget
      let processedFile := (lookupProcessed st.processedFiles key).getD []
      if processedFile.contains m then
        processModules f parseDoc schemas rest key st
      else
        let st1 := { st with
          processedFiles :=
            setProcessed st.processedFiles key (processedFile ++ [m])
          trace := st.trace ++ [(key, m)] }
        match readSource schemas moduleFilePath with
        | none => .error (.err missingSourceMsg)
        | some sdl2 =>
            match collectDefinitions f parseDoc schemas m.imports sdl2
                moduleFilePath st1 with
            | .error e => .error e
            | .ok st2 => processModules f parseDoc schemas rest key st2

end

/-- The input-value view of a field definition: the three properties the
source ever reads on an element of an InputObject fields array (name,
type, directives).  The arguments array of the field node is never read
through that array and is not part of the view. -/
def FieldDefinitionNode.asInputValue (f : FieldDefinitionNode) :
    InputValueDefinitionNode :=
  ⟨f.name, f.type, f.directives⟩

/-- The field view of an input value: name, type and directives carry
over.  The arguments property, which is undefined on the JavaScript
InputValueDefinition node, is rendered as the empty list; the one reader
of that property, the arguments loop of the object branch of
collectNewTypeDefinitions, then visits nothing where the JavaScript
original raises a TypeError on the undefined read. -/
def InputValueDefinitionNode.asField (v : InputValueDefinitionNode) :
    FieldDefinitionNode :=
  ⟨v.name, [], v.type, v.directives⟩

/-- The fields property of a later merge node, read into a field list
(the representation of the fields array of an object or interface
existing node).  Field-carrying kinds contribute their elements, input
objects through the field view of their input values.  For the field-less
kinds the JavaScript concat appends the single value undefined; an
undefined array element has no counterpart among the typed field nodes
and contributes nothing, so the model of every subsequent read of the
array visits one element fewer than the JavaScript original (which raises
a TypeError at that element). -/
def laterFieldsAsFields : ValidDefinitionNode → List FieldDefinitionNode
  | .objectDef _ _ _ f => f
  | .interfaceDef _ _ f => f
  | .inputObjectDef _ _ v => v.map InputValueDefinitionNode.asField
  | _ => []

/-- The fields property of a later merge node, read into an input-value
list (the representation of the fields array of an InputObject existing
node), under the same conventions as laterFieldsAsFields. -/
def laterFieldsAsInputValues :
    ValidDefinitionNode → List InputValueDefinitionNode
  | .objectDef _ _ _ f => f.map FieldDefinitionNode.asInputValue
  | .interfaceDef _ _ f => f.map FieldDefinitionNode.asInputValue
  | .inputObjectDef _ _ v => v
  | _ => []

/-- The assignment existingType.fields = existingType.fields.concat(
type.fields) of the root-type merge of importSchema (src/index.ts).  The
concat succeeds for every existing node carrying a fields property
(object, interface, input object), whatever the later node is; the
existing node keeps its kind, name and header and only its fields array
grows.  When the existing node has no fields property (scalar, union,
enum, directive definition) the JavaScript engine raises a TypeError on
the concat of undefined, rendered as none. -/
def concatFields (existing later : ValidDefinitionNode) :
    Option ValidDefinitionNode :=
  match existing with
  | .objectDef n ifs dirs f1 =>
      some (.objectDef n ifs dirs (f1 ++ laterFieldsAsFields later))
  | .interfaceDef n dirs f1 =>
      some (.interfaceDef n dirs (f1 ++ laterFieldsAsFields later))
  | .inputObjectDef n dirs f1 =>
      some (.inputObjectDef n dirs (f1 ++ laterFieldsAsInputValues later))
  | _ => none

/-- The for-of loop over firstSet in importSchema (src/index.ts): the
first definition of each name is pushed onto mergedFirstTypes; every later
definition with the same name has its fields appended in place onto that
first node. -/
def mergeLoop (processedTypeNames : List String)
    (mergedFirstTypes : List Nat) (store : List ValidDefinitionNode) :
    List Nat → Except String (List Nat × List ValidDefinitionNode)
  | [] => .ok (mergedFirstTypes, store)
  | idx :: rest =>
      let n := (getDef store idx).name
      if processedTypeNames.contains n then
        match mergedFirstTypes.find? (fun j =>
            (getDef store j).name = n) with
        | none => .error undefinedFieldsMsg
        | some j =>
            match concatFields (getDef store j) (getDef store idx) with
            | none => .error undefinedFieldsMsg
            | some d2 =>
                mergeLoop processedTypeNames mergedFirstTypes
                  (setDef store j d2) rest
      else
        mergeLoop (processedTypeNames ++ [n]) (mergedFirstTypes ++ [idx])
          store rest

/-- The seed computation of importSchema (src/index.ts, the firstTypes /
otherFirstTypes / firstSet / merge phase): root operation types from every
file in flatten order come first, then the non-root admissions of the root
file; same-named definitions are then merged field-wise in place.  Returns
firstSet (as store indices) and the mutated store. -/
def mergeRootTypes (store : List ValidDefinitionNode)
    (typeDefinitions : List (List Nat)) :
    Except String (List Nat × List ValidDefinitionNode) :=
  let flat := typeDefinitions.flatten
  let firstTypes := flat.filter (fun i =>
    rootFields.contains (getDef store i).name)
  let otherFirstTypes := (typeDefinitions.headD []).filter (fun i =>
    !rootFields.contains (getDef store i).name)
  let firstSet := firstTypes ++ otherFirstTypes
  match mergeLoop [] [] store firstSet with
  | .error e => .error e
  | .ok (_, store2) => .ok (firstSet, store2)

/-- importSchema of src/index.ts for logical in-memory sources, composed
from the modelled phases and returning the final definition list of the
document (the external printer serializes it).  The initial read falls
back to the schema string itself when the in-memory map has no entry or an
empty one (the or-schema of the source); the root document is parsed once
up front, the collector runs with wildcard imports, the root types are
merged, and the definition pool is completed over the flattened
accumulators, read through the merged store so that the in-place merge is
visible in all three lists. -/
def importSchemaDefs (fuel : Nat)
    (parseDoc : String → Option (List DocDefinitionNode))
    (schema : String) (schemas : List (String × String)) :
    Except CollectError (List ValidDefinitionNode) :=
  let sdl :=
    match readSource schemas schema with
    | some t => if t = "" then schema else t
    | none => schema
  match getDocumentFromSDL parseDoc sdl with
  | none => .error (.err parseFailureMsg)
  | some _ =>
      match collectDefinitions fuel parseDoc schemas ["*"] sdl schema
          ⟨[], [], [], [], []⟩ with
      | .error e => .error e
      | .ok st =>
          match mergeRootTypes st.store st.typeDefinitions with
          | .error e => .error (.err e)
          | .ok (firstSet, store2) =>
              completeDefinitionPool fuel
                (st.allDefinitions.flatten.map (getDef store2))
                (firstSet.map (getDef store2))
                (st.typeDefinitions.flatten.map (getDef store2))

/-! ## Basic lemmas -/

/-- A successful schema-map lookup returns a definition carrying the
looked-up name. -/
theorem lookupDef_name {allDefinitions : List ValidDefinitionNode}
    {n : String} {d : ValidDefinitionNode}
    (h : lookupDef allDefinitions n = some d) : d.name = n := by
  have := List.find?_some h
  simpa using this

/-- A successful schema-map lookup returns a member of allDefinitions. -/
theorem lookupDef_mem {allDefinitions : List ValidDefinitionNode}
    {n : String} {d : ValidDefinitionNode}
    (h : lookupDef allDefinitions n = some d) : d ∈ allDefinitions := by
  have := List.mem_of_find?_eq_some h
  simpa using this

/-- splitChars never returns the empty list (split of the empty string is
the singleton empty string, as in JavaScript). -/
theorem splitChars_ne_nil (sep : Char) (l : List Char) :
    splitChars sep l ≠ [] := by
  cases l with
  | nil => simp [splitChars]
  | cons c cs =>
      simp only [splitChars]
      rcases h : splitChars sep cs with _ | ⟨h1, t⟩
      · simp
      · by_cases hc : c = sep <;> simp [hc]

/-! ## Claim C5: quote pairing in parseImportLine -/

/-- Claim C5, counterexample: the two quote groups of the import
regular expression are matched independently, so the
line import A from "x~ (ending in a single quote) parses successfully with a
double open quote and a single close quote, contradicting the claim that
a line whose opening and closing quote characters differ fails. -/
theorem c5_counterexample :
    (regexImportMatch ("import A from \"x" ++ apos)).map
        (fun m => (m.openQuote, m.closeQuote))
      = some ('"', Char.ofNat 39)
    ∧ parseImportLine ("import A from \"x" ++ apos)
      = .ok { imports := ["A"], fromTarget := "x" } := by
  constructor
  · decide
  · decide

/-- Claim C5, amended: parseImportLine accepts any combination of single
and double quotes around the source string, matched independently; no
pairing is required. -/
theorem c5_quotes_matched_independently (q1 q2 : Char)
    (h1 : isQuoteChar q1 = true) (h2 : isQuoteChar q2 = true) :
    parseImportLine ("import A from " ++ String.singleton q1 ++ "x"
        ++ String.singleton q2)
      = .ok { imports := ["A"], fromTarget := "x" } := by
  simp only [isQuoteChar, Bool.or_eq_true, decide_eq_true_eq] at h1 h2
  rcases h1 with h1 | h1 <;> rcases h2 with h2 | h2 <;> subst h1 <;>
    subst h2 <;> decide

/-- Witness for the amended claim C5 at the concrete mismatched pair
(double quote open, single quote close). -/
theorem c5_quotes_matched_independently_witness :
    parseImportLine ("import A from " ++ String.singleton '"' ++ "x"
        ++ String.singleton (Char.ofNat 39))
      = .ok { imports := ["A"], fromTarget := "x" } :=
  c5_quotes_matched_independently '"' (Char.ofNat 39) (by decide)
    (by decide)

/-! ## Claim C8: failure conditions of parseImportLine -/

/-- On success the imports list is never empty: the wildcard branch
returns a singleton, and a JavaScript split always returns at least one
(possibly empty) string. -/
theorem parseImportLine_imports_ne_nil {s : String} {r : RawModule}
    (h : parseImportLine s = .ok r) : r.imports ≠ [] := by
  unfold parseImportLine at h
  rcases hm : regexImportMatch s with _ | m
  · rw [hm] at h
    exact absurd h (by simp)
  · rw [hm] at h
    by_cases hf : m.fromTarget = ""
    · simp [hf] at h
    · simp only [hf, if_false] at h
      by_cases hw : m.wildcard = "*"
      · simp only [hw, if_true] at h
        cases h
        simp
      · simp only [hw, if_false] at h
        cases h
        simp only []
        intro hc
        have h3 : splitOnChar ',' (m.importsString.getD "") = [] :=
          List.map_eq_nil_iff.mp hc
        have h4 : splitChars ',' (m.importsString.getD "").data = [] := by
          unfold splitOnChar at h3
          exact List.map_eq_nil_iff.mp h3
        exact splitChars_ne_nil _ _ h4

/-- Claim C8: parseImportLine fails exactly when the anchored regular
expression does not match or when the matched source string between the
quotes is empty; the empty-name-list condition of the claim never arises
on a matched line because the name list of a match is never empty (third
conjunct), and the import-from-empty-string parser law holds (fourth
conjunct), as does the spec law that import-without-names fails by regex
mismatch (fifth conjunct). -/
theorem c8_parse_failure_conditions :
    (∀ s : String,
      (∃ e, parseImportLine s = .error e) ↔
        (regexImportMatch s = none ∨
          ∃ m, regexImportMatch s = some m ∧ m.fromTarget = ""))
    ∧ (∀ (s : String) (r : RawModule),
        parseImportLine s = .ok r → r.imports ≠ [])
    ∧ (∃ e, parseImportLine "import A from \"\"" = .error e)
    ∧ (∃ e, parseImportLine "import from \"x\"" = .error e) := by
  refine ⟨?_, fun s r h => parseImportLine_imports_ne_nil h, ?_, ?_⟩
  · intro s
    unfold parseImportLine
    rcases hm : regexImportMatch s with _ | m
    · simp
    · by_cases hf : m.fromTarget = ""
      · simp [hf]
      · simp [hf]
  · exact ⟨"Too few regex matches", by decide⟩
  · exact ⟨"Too few regex matches: null", by decide⟩

/-! ## Claim C6: missing field type error message -/

/-- Claim C6: when the named leaf type of a field is neither a builtin
type nor a key of the schema map (and, as in every
configuration importSchema builds, every pool definition name is a schema-map key),
collectNode fails with exactly the message
Field fieldName colon Couldn apostrophe t find type typeName in any of
the schemas period. -/
theorem c6_missing_type_error (fuel : Nat)
    (definitionPool allDefinitions : List ValidDefinitionNode)
    (nodeName : String) (nodeType : TypeNode)
    (nodeDirectives : List DirectiveNode)
    (hbuiltin : builtinTypes.contains (getNamedType nodeType) = false)
    (hmap : lookupDef allDefinitions (getNamedType nodeType) = none)
    (hpool : ∀ d ∈ definitionPool,
      (lookupDef allDefinitions d.name).isSome) :
    collectNode (fuel + 1) definitionPool allDefinitions nodeName nodeType
        nodeDirectives
      = .error (.err (missingTypeMsg nodeName (getNamedType nodeType))) := by
  have hany : definitionPool.any
      (fun d => d.name = getNamedType nodeType) = false := by
    rw [List.any_eq_false]
    intro d hd
    simp only [decide_eq_true_eq]
    intro hc
    have := hpool d hd
    rw [hc, hmap] at this
    simp at this
  have hb : getNamedType nodeType ∉ builtinTypes := by
    simpa using hbuiltin
  unfold collectNode
  simp [hany, hb, hmap]

/-- Witness for claim C6: a concrete pool and schema map where the field
post references the absent type Post. -/
theorem c6_missing_type_error_witness :
    collectNode 1 [] [ValidDefinitionNode.scalarDef "S" []] "post"
        (.namedType "Post") []
      = .error (.err (missingTypeMsg "post" "Post")) :=
  c6_missing_type_error 0 [] [ValidDefinitionNode.scalarDef "S" []] "post"
    (.namedType "Post") [] (by decide) (by decide)
    (by intro d hd; simp at hd)


/-! ## Claim C2: the wildcard import filter -/

/-- Helper: membership in getDef of a set store at the written index. -/
theorem getDef_setDef_self {store : List ValidDefinitionNode} {j : Nat}
    {d : ValidDefinitionNode} (h : j < store.length) :
    getDef (setDef store j d) j = d := by
  simp [getDef, setDef, List.getD, List.getElem?_set_self h]

/-- Claim C2: with the import list exactly the wildcard, the filter keeps,
for a non-root file (at least one prior per-file entry below the one just
pushed), exactly the object-type definitions of the file whose names occur
among the definitions of previously visited files after excluding
root-operation names, and for the root invocation (the freshly pushed
entry is the only one) all filter-admissible definitions; the store is
never changed on this path. -/
theorem c2_wildcard_import_filter
    (entries : List DefinitionEntry) (allDefs : List (List Nat))
    (store : List ValidDefinitionNode)
    (kept : List Nat) (store2 : List ValidDefinitionNode)
    (h : filterImportedDefinitions ["*"] entries allDefs store
        = .ok (kept, store2)) :
    store2 = store
    ∧ (allDefs.length > 1 →
        ∀ i : Nat, i ∈ kept ↔
          (DefinitionEntry.valid i ∈ entries
            ∧ (getDef store i).isObject = true
            ∧ ∃ i2 ∈ (allDefs.dropLast).flatten,
                rootFields.contains (getDef store i2).name = false
                ∧ (getDef store i2).name = (getDef store i).name))
    ∧ (allDefs.length = 1 → kept = filterTypeDefinitionsIdx entries) := by
  unfold filterImportedDefinitions at h
  have hstar : ((["*"] : List String).contains "*") = true := by decide
  rw [hstar] at h
  simp only [if_true] at h
  by_cases hlen : allDefs.length > 1
  · rw [if_pos (by simp [hlen])] at h
    cases h
    refine ⟨rfl, ?_, ?_⟩
    · intro _ i
      simp only [List.mem_filterMap]
      constructor
      · rintro ⟨e, he, hmatch⟩
        cases e with
        | valid i2 =>
            simp only at hmatch
            split at hmatch
            · rename_i hcond
              cases hmatch
              simp only [Bool.and_eq_true, List.any_eq_true,
                List.mem_filter, decide_eq_true_eq, Bool.not_eq_true',
                List.mem_map] at hcond
              obtain ⟨hobj, d, ⟨⟨a, ha, hda⟩, hdroot⟩, hdname⟩ := hcond
              subst hda
              exact ⟨he, hobj, a, ha, hdroot, hdname⟩
            · cases hmatch
        | other k => simp at hmatch
      · rintro ⟨he, hobj, a, ha, hdroot, hdname⟩
        refine ⟨.valid i, he, ?_⟩
        simp only
        rw [if_pos]
        simp only [Bool.and_eq_true, List.any_eq_true, List.mem_filter,
          decide_eq_true_eq, Bool.not_eq_true', List.mem_map]
        exact ⟨hobj, getDef store a, ⟨⟨a, ha, rfl⟩, hdroot⟩, hdname⟩
    · intro hone
      omega
  · rw [if_neg (by simp [hlen])] at h
    cases h
    refine ⟨rfl, ?_, ?_⟩
    · intro hgt
      exact absurd hgt hlen
    · intro _
      rfl

/-- Witness for claim C2: two files, the previous one declaring a non-root
object named X, the current one re-exporting it through a
wildcard import. -/
theorem c2_wildcard_import_filter_witness :
    filterImportedDefinitions ["*"] [DefinitionEntry.valid 1] [[0], [1]]
        [ValidDefinitionNode.objectDef "X" [] [] [],
         ValidDefinitionNode.objectDef "X" [] [] []]
      = .ok ([1],
        [ValidDefinitionNode.objectDef "X" [] [] [],
         ValidDefinitionNode.objectDef "X" [] [] []])
    ∧ (1 : Nat) ∈ ([1] : List Nat) := by
  refine ⟨by decide, ?_⟩
  have h := c2_wildcard_import_filter [DefinitionEntry.valid 1] [[0], [1]]
    [ValidDefinitionNode.objectDef "X" [] [] [],
     ValidDefinitionNode.objectDef "X" [] [] []] [1]
    [ValidDefinitionNode.objectDef "X" [] [] [],
     ValidDefinitionNode.objectDef "X" [] [] []] (by decide)
  exact (h.2.1 (by decide) 1).mpr (by decide)

/-! ## Claim C10: dotted selectors mutate the shared nodes -/

/-- Claim C10: a dotted import selector makes filterImportedDefinitions
reassign the fields of the first matching admissible definition in place;
since the per-file entry pushed onto allDefinitions (the admissible
indices of the document, as in collectDefinitions) holds the very same
store index, the restriction is observable through allDefinitions: after
the call the node no longer carries its full field list. -/
theorem c10_dotted_import_mutation
    (sel head fld : String) (entries : List DefinitionEntry)
    (allDefs : List (List Nat)) (store store2 : List ValidDefinitionNode)
    (kept : List Nat) (j : Nat) (ifaces : List String)
    (dirs : List DirectiveNode) (flds : List FieldDefinitionNode)
    (hsel : sel ≠ "*")
    (hdot : hasDot sel = true)
    (hhead : splitHead sel = head)
    (hsecond : splitSecond sel = fld)
    (hlast : allDefs.getLast? = some (filterTypeDefinitionsIdx entries))
    (hfind : (filterTypeDefinitionsIdx entries).find?
        (fun i => (getDef store i).name = head) = some j)
    (hj : getDef store j = .objectDef head ifaces dirs flds)
    (hjlen : j < store.length)
    (h : filterImportedDefinitions [sel] entries allDefs store
        = .ok (kept, store2)) :
    (∃ fileEntry, allDefs.getLast? = some fileEntry ∧ j ∈ fileEntry)
    ∧ getDef store2 j = .objectDef head ifaces dirs
        (flds.filter (fun f => f.name = fld ∨ fld = "*"))
    ∧ (flds.filter (fun f => f.name = fld ∨ fld = "*") ≠ flds →
        getDef store2 j ≠ getDef store j) := by
  have hmem : j ∈ filterTypeDefinitionsIdx entries :=
    List.mem_of_find?_eq_some hfind
  have hstar : ([sel].contains "*") = false := by
    simp only [List.contains_cons, List.contains_nil, Bool.or_false]
    simp only [beq_eq_false_iff_ne, ne_eq]
    exact fun hc => hsel hc.symm
  have hfilterflds :
      flds.filter (fun f =>
          ([sel].map splitSecond).contains f.name
            || ([sel].map splitSecond).contains "*")
        = flds.filter (fun f => f.name = fld ∨ fld = "*") := by
    apply List.filter_congr
    intro f _
    simp [hsecond, eq_comm]
  unfold filterImportedDefinitions at h
  rw [hstar] at h
  simp only [if_false, Bool.false_eq_true] at h
  have hfi : ([sel].filter hasDot) = [sel] := by
    simp [List.filter, hdot]
  rw [hfi] at h
  have hgroup : groupByHead [sel] = [(head, [sel])] := by
    unfold groupByHead
    simp [dedupStringsAux, hhead, List.filter, hdot]
  rw [hgroup] at h
  unfold applyFieldRestrictions at h
  rw [hfind] at h
  simp only at h
  rw [hj] at h
  unfold restrictFields at h
  simp only at h
  unfold applyFieldRestrictions at h
  simp only at h
  cases h
  refine ⟨⟨filterTypeDefinitionsIdx entries, hlast, hmem⟩, ?_, ?_⟩
  · rw [getDef_setDef_self hjlen, hfilterflds]
  · intro hne
    rw [getDef_setDef_self hjlen, hj, hfilterflds]
    intro hc
    injection hc with _ _ _ hfe
    exact hne hfe

/-- Witness for claim C10: importing Query.posts keeps only the posts
field of the Query node, observably through the store index shared with
allDefinitions. -/
theorem c10_dotted_import_mutation_witness :
    filterImportedDefinitions ["Query.posts"] [DefinitionEntry.valid 0]
        [[0]]
        [ValidDefinitionNode.objectDef "Query" [] []
          [⟨"posts", [], .namedType "String", []⟩,
           ⟨"hello", [], .namedType "String", []⟩]]
      = .ok ([0],
        [ValidDefinitionNode.objectDef "Query" [] []
          [⟨"posts", [], .namedType "String", []⟩]])
    ∧ getDef
        [ValidDefinitionNode.objectDef "Query" [] []
          [⟨"posts", [], .namedType "String", []⟩]] 0
      = ValidDefinitionNode.objectDef "Query" [] []
          ([⟨"posts", [], .namedType "String", []⟩,
            ⟨"hello", [], .namedType "String", []⟩].filter
            (fun f => f.name = "posts" ∨ "posts" = "*")) := by
  refine ⟨by decide, ?_⟩
  have h := c10_dotted_import_mutation "Query.posts" "Query" "posts"
    [DefinitionEntry.valid 0] [[0]]
    [ValidDefinitionNode.objectDef "Query" [] []
      [⟨"posts", [], .namedType "String", []⟩,
       ⟨"hello", [], .namedType "String", []⟩]]
    [ValidDefinitionNode.objectDef "Query" [] []
      [⟨"posts", [], .namedType "String", []⟩]]
    [0] 0 [] []
    [⟨"posts", [], .namedType "String", []⟩,
     ⟨"hello", [], .namedType "String", []⟩]
    (by decide) (by decide) (by decide) (by decide) (by decide) (by decide)
    (by decide) (by decide) (by decide)
  exact h.2.1


/-- Witness for claim C8 instantiating the success-implies-nonempty
conjunct at a concrete accepted line. -/
theorem c8_parse_failure_conditions_witness :
    parseImportLine "import A from \"x\""
      = .ok { imports := ["A"], fromTarget := "x" }
    ∧ (["A"] : List String) ≠ [] := by
  refine ⟨by decide, ?_⟩
  exact c8_parse_failure_conditions.2.1 "import A from \"x\""
    { imports := ["A"], fromTarget := "x" } (by decide)

/-! ## Claim C9: name deduplication of the final pool -/

/-- Every element of the deduplicated list comes from the original
list. -/
theorem uniqByNameAux_subset {seen : List String}
    {l : List ValidDefinitionNode} {d : ValidDefinitionNode}
    (h : d ∈ uniqByNameAux seen l) : d ∈ l := by
  induction l generalizing seen with
  | nil => simpa [uniqByNameAux] using h
  | cons x xs ih =>
      unfold uniqByNameAux at h
      by_cases hx : x.name ∈ seen
      · simp only [hx, if_true] at h
        exact List.mem_cons_of_mem x (ih h)
      · simp only [hx, if_false] at h
        rcases List.mem_cons.mp h with h1 | h1
        · exact h1 ▸ List.mem_cons_self x xs
        · exact List.mem_cons_of_mem x (ih h1)

/-- The names of the deduplicated list avoid the seen set and repeat no
name. -/
theorem uniqByNameAux_names_nodup (seen : List String)
    (l : List ValidDefinitionNode) :
    ((uniqByNameAux seen l).map ValidDefinitionNode.name).Nodup
    ∧ ∀ d ∈ uniqByNameAux seen l, d.name ∉ seen := by
  induction l generalizing seen with
  | nil => simp [uniqByNameAux]
  | cons x xs ih =>
      unfold uniqByNameAux
      by_cases hx : x.name ∈ seen
      · simpa [hx] using ih seen
      · simp only [hx, if_false, List.map_cons, List.nodup_cons,
          List.mem_map]
        obtain ⟨hnd, havoid⟩ := ih (x.name :: seen)
        refine ⟨⟨?_, hnd⟩, ?_⟩
        · rintro ⟨d, hd, hdn⟩
          exact havoid d hd (hdn ▸ List.mem_cons_self x.name seen)
        · intro d hd
          rcases List.mem_cons.mp hd with h1 | h1
          · subst h1
            exact hx
          · intro hc
            exact havoid d h1 (List.mem_cons_of_mem x.name hc)

/-- Deduplication keeps, for every name outside the seen set, exactly the
first definition carrying it: find-by-name is preserved. -/
theorem uniqByNameAux_find? (seen : List String)
    (l : List ValidDefinitionNode) (n : String) (hn : n ∉ seen) :
    (uniqByNameAux seen l).find? (fun d => d.name = n)
      = l.find? (fun d => d.name = n) := by
  induction l generalizing seen with
  | nil => simp [uniqByNameAux]
  | cons x xs ih =>
      unfold uniqByNameAux
      by_cases hx : x.name ∈ seen
      · have hxn : ¬(x.name = n) := fun hc => hn (hc ▸ hx)
        simp only [hx, if_true]
        rw [ih seen hn]
        rw [List.find?_cons_of_neg]
        simp [hxn]
      · simp only [hx, if_false]
        by_cases hxn : x.name = n
        · rw [List.find?_cons_of_pos, List.find?_cons_of_pos] <;>
            simp [hxn]
        · rw [List.find?_cons_of_neg, List.find?_cons_of_neg]
          · exact ih (x.name :: seen) (by
              intro hc
              rcases List.mem_cons.mp hc with h1 | h1
              · exact hxn h1.symm
              · exact hn h1)
          · simp [hxn]
          · simp [hxn]

/-- A name occurs in the deduplicated list exactly when it occurs in the
original list. -/
theorem uniqByName_names (l : List ValidDefinitionNode) (n : String) :
    (∃ d ∈ uniqByName l, d.name = n) ↔ ∃ d ∈ l, d.name = n := by
  have hfind := uniqByNameAux_find? [] l n (by simp)
  constructor
  · rintro ⟨d, hd, rfl⟩
    exact ⟨d, uniqByNameAux_subset hd, rfl⟩
  · rintro ⟨d, hd, rfl⟩
    have : l.find? (fun d2 => d2.name = d.name) ≠ none := by
      intro hc
      have := List.find?_eq_none.mp hc d hd
      simp at this
    rcases hfound : (uniqByName l).find? (fun d2 => d2.name = d.name) with
      _ | d2
    · rw [uniqByName] at hfound
      rw [hfind] at hfound
      exact absurd hfound this
    · have hmem := List.mem_of_find?_eq_some hfound
      have hname := List.find?_some hfound
      simp only [decide_eq_true_eq] at hname
      exact ⟨d2, hmem, hname⟩

/-- Claim C9: the final list of completeDefinitionPool repeats no name,
and it is exactly the grown pool deduplicated by name with the first
occurrence of each name kept (find-by-name agrees with the grown pool and
every survivor is a member of the grown pool). -/
theorem c9_name_uniqueness (fuel : Nat)
    (allDefinitions definitionPool newTypeDefinitions out :
      List ValidDefinitionNode)
    (h : completeDefinitionPool fuel allDefinitions definitionPool
        newTypeDefinitions = .ok out) :
    ((out.map ValidDefinitionNode.name).Nodup)
    ∧ ∃ grown,
        completePoolLoop fuel allDefinitions definitionPool
            newTypeDefinitions [] = .ok grown
        ∧ out = uniqByName grown
        ∧ (∀ n : String, out.find? (fun d => d.name = n)
            = grown.find? (fun d => d.name = n))
        ∧ ∀ d ∈ out, d ∈ grown := by
  unfold completeDefinitionPool at h
  rcases hloop : completePoolLoop fuel allDefinitions definitionPool
      newTypeDefinitions [] with _ | grown
  · rw [hloop] at h
    exact absurd h (by simp)
  · rw [hloop] at h
    cases h
    refine ⟨(uniqByNameAux_names_nodup [] grown).1, grown, rfl, rfl,
      ?_, ?_⟩
    · intro n
      exact uniqByNameAux_find? [] grown n (by simp)
    · intro d hd
      exact uniqByNameAux_subset hd

/-- Witness for claim C9: a pool holding two definitions named X keeps
only the first. -/
theorem c9_name_uniqueness_witness :
    completeDefinitionPool 1
        [ValidDefinitionNode.scalarDef "X" []]
        [ValidDefinitionNode.scalarDef "X" [],
         ValidDefinitionNode.objectDef "X" [] [] []] []
      = .ok [ValidDefinitionNode.scalarDef "X" []]
    ∧ (([ValidDefinitionNode.scalarDef "X" []].map
        ValidDefinitionNode.name).Nodup) := by
  refine ⟨by decide, ?_⟩
  exact (c9_name_uniqueness 1 [ValidDefinitionNode.scalarDef "X" []]
    [ValidDefinitionNode.scalarDef "X" [],
     ValidDefinitionNode.objectDef "X" [] [] []] []
    [ValidDefinitionNode.scalarDef "X" []] (by decide)).1


/-! ## References of a definition

Two reference relations are needed: engineRefs is the set of names the
closure engine of src/definition.ts actually resolves for a definition it
expands, and syntacticRefs is the full reference relation of the claim
(field types, argument types, implemented interfaces, union members,
applied directives, at every syntactic site).  The two differ: the engine
resolves nothing for a directive definition it expands, skips the
arguments of interface fields, and skips the directives applied to enum
values. -/

/-- A syntactic reference: a type name or an applied directive name. -/
inductive Reference where
  | typeRef (n : String)
  | directiveRef (n : String)
deriving DecidableEq, Repr

/-- The referenced name. -/
def Reference.name : Reference → String
  | .typeRef n => n
  | .directiveRef n => n

/-- Whether the reference is satisfied by a builtin: builtin types for
type references, builtin directives for directive references. -/
def Reference.isBuiltin : Reference → Bool
  | .typeRef n => builtinTypes.contains n
  | .directiveRef n => builtinDirectives.contains n

/-- Directive applications as references. -/
def directiveRefs (dirs : List DirectiveNode) : List Reference :=
  dirs.map (fun d => .directiveRef d.name)

/-- The references collectNode resolves for a field or input value: the
named leaf of the type and the applied directives. -/
def nodeEngineRefs (ty : TypeNode) (dirs : List DirectiveNode) :
    List Reference :=
  .typeRef (getNamedType ty) :: directiveRefs dirs

/-- collectNode references of an input value definition. -/
def inputValueEngineRefs (v : InputValueDefinitionNode) : List Reference :=
  nodeEngineRefs v.type v.directives

/-- The references the closure engine resolves when it expands a
definition (collectNewTypeDefinitions): nothing for directive
definitions; the definition directives always; input-object fields and
their directives; interface fields without their arguments; union
members; object interfaces, fields, field arguments and all their
directives. -/
def engineRefs : ValidDefinitionNode → List Reference
  | .directiveDef _ _ => []
  | .scalarDef _ dirs => directiveRefs dirs
  | .enumDef _ dirs _ => directiveRefs dirs
  | .inputObjectDef _ dirs fields =>
      directiveRefs dirs ++ fields.flatMap inputValueEngineRefs
  | .interfaceDef _ dirs fields =>
      directiveRefs dirs
        ++ fields.flatMap (fun f => nodeEngineRefs f.type f.directives)
  | .unionDef _ dirs types =>
      directiveRefs dirs ++ types.map Reference.typeRef
  | .objectDef _ interfaces dirs fields =>
      directiveRefs dirs ++ interfaces.map Reference.typeRef
        ++ fields.flatMap (fun f =>
            nodeEngineRefs f.type f.directives
              ++ f.arguments.flatMap inputValueEngineRefs)

/-- All syntactic references of a field: its type, its directives, its
argument types and their directives. -/
def fieldSyntacticRefs (f : FieldDefinitionNode) : List Reference :=
  nodeEngineRefs f.type f.directives
    ++ f.arguments.flatMap inputValueEngineRefs

/-- The full syntactic reference relation of claim C1: every name a
definition references through field types, argument types, implemented
interfaces, union members and applied directives, descending through list
and non-null wrappers. -/
def syntacticRefs : ValidDefinitionNode → List Reference
  | .directiveDef _ arguments => arguments.flatMap inputValueEngineRefs
  | .scalarDef _ dirs => directiveRefs dirs
  | .enumDef _ dirs values =>
      directiveRefs dirs
        ++ values.flatMap (fun v => directiveRefs v.directives)
  | .inputObjectDef _ dirs fields =>
      directiveRefs dirs ++ fields.flatMap inputValueEngineRefs
  | .interfaceDef _ dirs fields =>
      directiveRefs dirs ++ fields.flatMap fieldSyntacticRefs
  | .unionDef _ dirs types =>
      directiveRefs dirs ++ types.map Reference.typeRef
  | .objectDef _ interfaces dirs fields =>
      directiveRefs dirs ++ interfaces.map Reference.typeRef
        ++ fields.flatMap fieldSyntacticRefs

/-- The names of a definition list. -/
def namesOf (l : List ValidDefinitionNode) : List String :=
  l.map ValidDefinitionNode.name

/-- No two definitions of the list share a name without being equal. -/
def NamesUnique (l : List ValidDefinitionNode) : Prop :=
  ∀ d1 ∈ l, ∀ d2 ∈ l, d1.name = d2.name → d1 = d2

instance (l : List ValidDefinitionNode) : Decidable (NamesUnique l) := by
  unfold NamesUnique
  infer_instance

/-! ## Everything the collectors push comes from allDefinitions -/

/-- Joint membership lemma for the four mutually recursive collectors:
every definition they push was found in allDefinitions (through the
schema map). -/
theorem collect_mem_all (f : Nat) :
    ∀ (definitionPool allDefinitions : List ValidDefinitionNode),
    (∀ d L, collectDirective f definitionPool allDefinitions d = .ok L →
      ∀ x ∈ L, x ∈ allDefinitions)
    ∧ (∀ ds L,
        collectDirectives f definitionPool allDefinitions ds = .ok L →
        ∀ x ∈ L, x ∈ allDefinitions)
    ∧ (∀ nm ty dirs L,
        collectNode f definitionPool allDefinitions nm ty dirs = .ok L →
        ∀ x ∈ L, x ∈ allDefinitions)
    ∧ (∀ vs L,
        collectInputValues f definitionPool allDefinitions vs = .ok L →
        ∀ x ∈ L, x ∈ allDefinitions) := by
  induction f with
  | zero =>
      intro pool allD
      refine ⟨?_, ?_, ?_, ?_⟩
      · intro d L h
        exact absurd h (by simp [collectDirective])
      · intro ds L h
        cases ds with
        | nil =>
            simp only [collectDirectives] at h
            cases h
            simp
        | cons d ds => exact absurd h (by simp [collectDirectives])
      · intro nm ty dirs L h
        exact absurd h (by simp [collectNode])
      · intro vs L h
        cases vs with
        | nil =>
            simp only [collectInputValues] at h
            cases h
            simp
        | cons v vs => exact absurd h (by simp [collectInputValues])
  | succ f ih =>
      intro pool allD
      obtain ⟨ihd, ihds, ihn, ihvs⟩ := ih pool allD
      refine ⟨?_, ?_, ?_, ?_⟩
      · intro d L h
        simp only [collectDirective] at h
        split at h
        · cases h
          simp
        · rcases hl : lookupDef allD d.name with _ | dirDef
          · simp [hl] at h
          · cases dirDef with
            | directiveDef n args =>
                simp only [hl] at h
                rcases hciv : collectInputValues f pool allD args with
                  e | collected
                · simp [hciv] at h
                · simp only [hciv] at h
                  cases h
                  intro x hx
                  rcases List.mem_append.mp hx with h1 | h1
                  · exact ihvs args collected hciv x h1
                  · have := List.mem_singleton.mp h1
                    subst this
                    exact lookupDef_mem hl
            | scalarDef n dirs => simp [hl] at h
            | objectDef n i dr fl => simp [hl] at h
            | interfaceDef n dr fl => simp [hl] at h
            | unionDef n dr ts => simp [hl] at h
            | enumDef n dr vs => simp [hl] at h
            | inputObjectDef n dr fl => simp [hl] at h
      · intro ds L h
        cases ds with
        | nil =>
            simp only [collectDirectives] at h
            cases h
            simp
        | cons d ds =>
            simp only [collectDirectives] at h
            rcases h1 : collectDirective f pool allD d with e | l
            · rw [h1] at h
              exact absurd h (by simp)
            · rw [h1] at h
              rcases h2 : collectDirectives f pool allD ds with e | r
              · rw [h2] at h
                exact absurd h (by simp)
              · rw [h2] at h
                cases h
                intro x hx
                rcases List.mem_append.mp hx with h3 | h3
                · exact ihd d l h1 x h3
                · exact ihds ds r h2 x h3
      · intro nm ty dirs L h
        simp only [collectNode] at h
        split at h
        · exact absurd h (by simp)
        · rename_i tp heq
          split at h
          · exact absurd h (by simp)
          · rename_i dp hdp
            cases h
            intro x hx
            rcases List.mem_append.mp hx with h1 | h1
            · split at heq
              · cases heq
                simp at h1
              · rcases hl : lookupDef allD (getNamedType ty) with _ | m
                · rw [hl] at heq
                  exact absurd heq (by simp)
                · rw [hl] at heq
                  cases heq
                  have := List.mem_singleton.mp h1
                  subst this
                  exact lookupDef_mem hl
            · exact ihds dirs dp hdp x h1
      · intro vs L h
        cases vs with
        | nil =>
            simp only [collectInputValues] at h
            cases h
            simp
        | cons v vs =>
            simp only [collectInputValues] at h
            rcases h1 : collectNode f pool allD v.name v.type
                v.directives with e | l
            · rw [h1] at h
              exact absurd h (by simp)
            · rw [h1] at h
              rcases h2 : collectInputValues f pool allD vs with e | r
              · rw [h2] at h
                exact absurd h (by simp)
              · rw [h2] at h
                cases h
                intro x hx
                rcases List.mem_append.mp hx with h3 | h3
                · exact ihn v.name v.type v.directives l h1 x h3
                · exact ihvs vs r h2 x h3


/-! ## Everything the engine references ends up resolvable -/

/-- A reference is covered when it is builtin or its name occurs in the
pool or among the freshly collected definitions. -/
def covers (definitionPool L : List ValidDefinitionNode)
    (r : Reference) : Prop :=
  r.isBuiltin = true ∨ r.name ∈ namesOf definitionPool
    ∨ r.name ∈ namesOf L

/-- Coverage is monotone in the collected list. -/
theorem covers_mono {definitionPool L L2 : List ValidDefinitionNode}
    {r : Reference} (hsub : ∀ n, n ∈ namesOf L → n ∈ namesOf L2)
    (h : covers definitionPool L r) : covers definitionPool L2 r := by
  rcases h with h | h | h
  · exact Or.inl h
  · exact Or.inr (Or.inl h)
  · exact Or.inr (Or.inr (hsub _ h))

/-- Names of a left part occur in the names of an append. -/
theorem namesOf_append_left {n : String}
    {a b : List ValidDefinitionNode} (h : n ∈ namesOf a) :
    n ∈ namesOf (a ++ b) := by
  simp only [namesOf, List.map_append, List.mem_append]
  exact Or.inl h

/-- Names of a right part occur in the names of an append. -/
theorem namesOf_append_right {n : String}
    {a b : List ValidDefinitionNode} (h : n ∈ namesOf b) :
    n ∈ namesOf (a ++ b) := by
  simp only [namesOf, List.map_append, List.mem_append]
  exact Or.inr h

/-- The name of a member occurs in the names of the list. -/
theorem mem_namesOf {d : ValidDefinitionNode}
    {l : List ValidDefinitionNode} (h : d ∈ l) : d.name ∈ namesOf l :=
  List.mem_map_of_mem ValidDefinitionNode.name h

/-- collectDirective leaves the applied directive resolvable: builtin, in
the pool, or among the pushed definitions (the looked-up directive
definition is pushed last and carries the name). -/
theorem collectDirective_covers {f : Nat}
    {definitionPool allDefinitions : List ValidDefinitionNode}
    {d : DirectiveNode} {L : List ValidDefinitionNode}
    (h : collectDirective f definitionPool allDefinitions d = .ok L) :
    covers definitionPool L (.directiveRef d.name) := by
  cases f with
  | zero => exact absurd h (by simp [collectDirective])
  | succ f =>
      simp only [collectDirective] at h
      split at h
      · rename_i hcond
        simp only [Bool.or_eq_true] at hcond
        rcases hcond with hc | hc
        · obtain ⟨d2, hd2, he⟩ := List.any_eq_true.mp hc
          simp only [decide_eq_true_eq] at he
          exact Or.inr (Or.inl (he ▸ mem_namesOf hd2))
        · exact Or.inl hc
      · rcases hl : lookupDef allDefinitions d.name with _ | dirDef
        · simp [hl] at h
        · cases dirDef with
          | directiveDef n args =>
              simp only [hl] at h
              rcases hciv : collectInputValues f definitionPool
                  allDefinitions args with e | collected
              · simp [hciv] at h
              · simp only [hciv] at h
                cases h
                have hn : n = d.name := by
                  have := lookupDef_name hl
                  simpa [ValidDefinitionNode.name] using this
                refine Or.inr (Or.inr ?_)
                refine namesOf_append_right ?_
                simp [namesOf, ValidDefinitionNode.name, Reference.name,
                  hn]
          | scalarDef n dirs => simp [hl] at h
          | objectDef n i dr fl => simp [hl] at h
          | interfaceDef n dr fl => simp [hl] at h
          | unionDef n dr ts => simp [hl] at h
          | enumDef n dr vs => simp [hl] at h
          | inputObjectDef n dr fl => simp [hl] at h

/-- collectDirectives covers every directive of the list. -/
theorem collectDirectives_covers :
    ∀ {ds : List DirectiveNode} {f : Nat}
      {definitionPool allDefinitions L : List ValidDefinitionNode},
    collectDirectives f definitionPool allDefinitions ds = .ok L →
    ∀ d ∈ ds, covers definitionPool L (.directiveRef d.name) := by
  intro ds
  induction ds with
  | nil => intro f pool allD L h d hd; simp at hd
  | cons d2 ds ih =>
      intro f pool allD L h d hd
      cases f with
      | zero => exact absurd h (by simp [collectDirectives])
      | succ f =>
          simp only [collectDirectives] at h
          rcases h1 : collectDirective f pool allD d2 with e | l
          · simp [h1] at h
          · simp only [h1] at h
            rcases h2 : collectDirectives f pool allD ds with e | r
            · simp [h2] at h
            · simp only [h2] at h
              cases h
              rcases List.mem_cons.mp hd with h3 | h3
              · subst h3
                exact covers_mono (fun n hn => namesOf_append_left hn)
                  (collectDirective_covers h1)
              · exact covers_mono (fun n hn => namesOf_append_right hn)
                  (ih h2 d h3)

/-- collectNode covers the named leaf type and every directive of the
node. -/
theorem collectNode_covers {f : Nat}
    {definitionPool allDefinitions : List ValidDefinitionNode}
    {nm : String} {ty : TypeNode} {dirs : List DirectiveNode}
    {L : List ValidDefinitionNode}
    (h : collectNode f definitionPool allDefinitions nm ty dirs = .ok L) :
    covers definitionPool L (.typeRef (getNamedType ty))
    ∧ ∀ d ∈ dirs, covers definitionPool L (.directiveRef d.name) := by
  cases f with
  | zero => exact absurd h (by simp [collectNode])
  | succ f =>
      simp only [collectNode] at h
      split at h
      · exact absurd h (by simp)
      · rename_i tp heq
        split at h
        · exact absurd h (by simp)
        · rename_i dp hdp
          cases h
          constructor
          · split at heq
            · rename_i hcond
              simp only [Bool.or_eq_true] at hcond
              rcases hcond with hc | hc
              · obtain ⟨d2, hd2, he⟩ := List.any_eq_true.mp hc
                simp only [decide_eq_true_eq] at he
                exact Or.inr (Or.inl (he ▸ mem_namesOf hd2))
              · exact Or.inl hc
            · rcases hl : lookupDef allDefinitions (getNamedType ty) with
                _ | m
              · rw [hl] at heq
                exact absurd heq (by simp)
              · rw [hl] at heq
                cases heq
                refine Or.inr (Or.inr (namesOf_append_left ?_))
                have := lookupDef_name hl
                simp [namesOf, Reference.name, this]
          · intro d hd
            exact covers_mono (fun n hn => namesOf_append_right hn)
              (collectDirectives_covers hdp d hd)

/-- collectInputValues covers the leaf type and the directives of every
input value of the list. -/
theorem collectInputValues_covers :
    ∀ {vs : List InputValueDefinitionNode} {f : Nat}
      {definitionPool allDefinitions L : List ValidDefinitionNode},
    collectInputValues f definitionPool allDefinitions vs = .ok L →
    ∀ v ∈ vs,
      covers definitionPool L (.typeRef (getNamedType v.type))
      ∧ ∀ d ∈ v.directives,
          covers definitionPool L (.directiveRef d.name) := by
  intro vs
  induction vs with
  | nil => intro f pool allD L h v hv; simp at hv
  | cons v2 vs ih =>
      intro f pool allD L h v hv
      cases f with
      | zero => exact absurd h (by simp [collectInputValues])
      | succ f =>
          simp only [collectInputValues] at h
          rcases h1 : collectNode f pool allD v2.name v2.type
              v2.directives with e | l
          · simp [h1] at h
          · simp only [h1] at h
            rcases h2 : collectInputValues f pool allD vs with e | r
            · simp [h2] at h
            · simp only [h2] at h
              cases h
              rcases List.mem_cons.mp hv with h3 | h3
              · subst h3
                obtain ⟨hty, hdirs⟩ := collectNode_covers h1
                exact ⟨covers_mono (fun n hn => namesOf_append_left hn)
                    hty,
                  fun d hd => covers_mono
                    (fun n hn => namesOf_append_left hn) (hdirs d hd)⟩
              · obtain ⟨hty, hdirs⟩ := ih h2 v h3
                exact ⟨covers_mono (fun n hn => namesOf_append_right hn)
                    hty,
                  fun d hd => covers_mono
                    (fun n hn => namesOf_append_right hn) (hdirs d hd)⟩


/-- collectUnionMembers covers every member name of the union and pushes
only schema-map definitions. -/
theorem collectUnionMembers_covers :
    ∀ {ts : List String}
      {definitionPool allDefinitions L : List ValidDefinitionNode},
    collectUnionMembers definitionPool allDefinitions ts = .ok L →
    (∀ t ∈ ts, t ∈ namesOf definitionPool ∨ t ∈ namesOf L)
    ∧ ∀ x ∈ L, x ∈ allDefinitions := by
  intro ts
  induction ts with
  | nil =>
      intro pool allD L h
      simp only [collectUnionMembers] at h
      cases h
      exact ⟨by simp, by simp⟩
  | cons t ts ih =>
      intro pool allD L h
      simp only [collectUnionMembers] at h
      split at h
      · rename_i hany
        obtain ⟨hcov, hmem⟩ := ih h
        refine ⟨?_, hmem⟩
        intro t2 ht2
        rcases List.mem_cons.mp ht2 with h1 | h1
        · subst h1
          obtain ⟨d2, hd2, he⟩ := List.any_eq_true.mp hany
          simp only [decide_eq_true_eq] at he
          exact Or.inl (he ▸ mem_namesOf hd2)
        · exact hcov t2 h1
      · rcases hl : lookupDef allD t with _ | m
        · simp [hl] at h
        · simp only [hl] at h
          rcases hr : collectUnionMembers pool allD ts with e | r
          · simp [hr] at h
          · simp only [hr] at h
            cases h
            obtain ⟨hcov, hmem⟩ := ih hr
            refine ⟨?_, ?_⟩
            · intro t2 ht2
              rcases List.mem_cons.mp ht2 with h1 | h1
              · subst h1
                refine Or.inr ?_
                have := lookupDef_name hl
                simp [namesOf, this]
              · rcases hcov t2 h1 with h2 | h2
                · exact Or.inl h2
                · refine Or.inr ?_
                  simpa [namesOf] using Or.inr (by
                    simpa [namesOf] using h2)
            · intro x hx
              rcases List.mem_cons.mp hx with h1 | h1
              · exact h1 ▸ lookupDef_mem hl
              · exact hmem x h1

/-- collectObjectInterfaces covers every implemented interface name. -/
theorem collectObjectInterfaces_covers :
    ∀ {is2 : List String}
      {definitionPool allDefinitions L : List ValidDefinitionNode},
    collectObjectInterfaces definitionPool allDefinitions is2 = .ok L →
    (∀ t ∈ is2, t ∈ namesOf definitionPool ∨ t ∈ namesOf L)
    ∧ ∀ x ∈ L, x ∈ allDefinitions := by
  intro is2
  induction is2 with
  | nil =>
      intro pool allD L h
      simp only [collectObjectInterfaces] at h
      cases h
      exact ⟨by simp, by simp⟩
  | cons t ts ih =>
      intro pool allD L h
      simp only [collectObjectInterfaces] at h
      split at h
      · rename_i hany
        obtain ⟨hcov, hmem⟩ := ih h
        refine ⟨?_, hmem⟩
        intro t2 ht2
        rcases List.mem_cons.mp ht2 with h1 | h1
        · subst h1
          obtain ⟨d2, hd2, he⟩ := List.any_eq_true.mp hany
          simp only [decide_eq_true_eq] at he
          exact Or.inl (he ▸ mem_namesOf hd2)
        · exact hcov t2 h1
      · rcases hl : lookupDef allD t with _ | m
        · simp [hl] at h
        · simp only [hl] at h
          rcases hr : collectObjectInterfaces pool allD ts with e | r
          · simp [hr] at h
          · simp only [hr] at h
            cases h
            obtain ⟨hcov, hmem⟩ := ih hr
            refine ⟨?_, ?_⟩
            · intro t2 ht2
              rcases List.mem_cons.mp ht2 with h1 | h1
              · subst h1
                refine Or.inr ?_
                have := lookupDef_name hl
                simp [namesOf, this]
              · rcases hcov t2 h1 with h2 | h2
                · exact Or.inl h2
                · refine Or.inr ?_
                  simpa [namesOf] using Or.inr (by
                    simpa [namesOf] using h2)
            · intro x hx
              rcases List.mem_cons.mp hx with h1 | h1
              · exact h1 ▸ lookupDef_mem hl
              · exact hmem x h1

/-- collectInterfaceFields covers the leaf type and the directives of
every interface field (the source skips interface field arguments), and
pushes only schema-map definitions. -/
theorem collectInterfaceFields_covers :
    ∀ {fs : List FieldDefinitionNode} {f : Nat}
      {definitionPool allDefinitions L : List ValidDefinitionNode},
    collectInterfaceFields f definitionPool allDefinitions fs = .ok L →
    (∀ fl ∈ fs,
      covers definitionPool L (.typeRef (getNamedType fl.type))
      ∧ ∀ d ∈ fl.directives,
          covers definitionPool L (.directiveRef d.name))
    ∧ ∀ x ∈ L, x ∈ allDefinitions := by
  intro fs
  induction fs with
  | nil =>
      intro f pool allD L h
      simp only [collectInterfaceFields] at h
      cases h
      exact ⟨by simp, by simp⟩
  | cons fl fs ih =>
      intro f pool allD L h
      simp only [collectInterfaceFields] at h
      rcases h1 : collectNode f pool allD fl.name fl.type fl.directives
        with e | l
      · simp [h1] at h
      · simp only [h1] at h
        rcases h2 : collectInterfaceFields f pool allD fs with e | r
        · simp [h2] at h
        · simp only [h2] at h
          cases h
          obtain ⟨hcov, hmem⟩ := ih h2
          refine ⟨?_, ?_⟩
          · intro fl2 hfl2
            rcases List.mem_cons.mp hfl2 with h3 | h3
            · subst h3
              obtain ⟨hty, hdirs⟩ := collectNode_covers h1
              exact ⟨covers_mono (fun n hn => namesOf_append_left hn) hty,
                fun d hd => covers_mono
                  (fun n hn => namesOf_append_left hn) (hdirs d hd)⟩
            · obtain ⟨hty, hdirs⟩ := hcov fl2 h3
              exact ⟨covers_mono (fun n hn => namesOf_append_right hn) hty,
                fun d hd => covers_mono
                  (fun n hn => namesOf_append_right hn) (hdirs d hd)⟩
          · intro x hx
            rcases List.mem_append.mp hx with h3 | h3
            · exact (collect_mem_all f pool allD).2.2.1 fl.name fl.type
                fl.directives l h1 x h3
            · exact hmem x h3

/-- collectObjectFields covers the leaf type, the directives and every
argument of every object field, and pushes only schema-map
definitions. -/
theorem collectObjectFields_covers :
    ∀ {fs : List FieldDefinitionNode} {f : Nat}
      {definitionPool allDefinitions L : List ValidDefinitionNode},
    collectObjectFields f definitionPool allDefinitions fs = .ok L →
    (∀ fl ∈ fs,
      (covers definitionPool L (.typeRef (getNamedType fl.type))
        ∧ ∀ d ∈ fl.directives,
            covers definitionPool L (.directiveRef d.name))
      ∧ ∀ v ∈ fl.arguments,
          covers definitionPool L (.typeRef (getNamedType v.type))
          ∧ ∀ d ∈ v.directives,
              covers definitionPool L (.directiveRef d.name))
    ∧ ∀ x ∈ L, x ∈ allDefinitions := by
  intro fs
  induction fs with
  | nil =>
      intro f pool allD L h
      simp only [collectObjectFields] at h
      cases h
      exact ⟨by simp, by simp⟩
  | cons fl fs ih =>
      intro f pool allD L h
      simp only [collectObjectFields] at h
      rcases h1 : collectNode f pool allD fl.name fl.type fl.directives
        with e | l
      · simp [h1] at h
      · simp only [h1] at h
        rcases ha : collectInputValues f pool allD fl.arguments with e | a
        · simp [ha] at h
        · simp only [ha] at h
          rcases h2 : collectObjectFields f pool allD fs with e | r
          · simp [h2] at h
          · simp only [h2] at h
            cases h
            obtain ⟨hcov, hmem⟩ := ih h2
            refine ⟨?_, ?_⟩
            · intro fl2 hfl2
              rcases List.mem_cons.mp hfl2 with h3 | h3
              · subst h3
                obtain ⟨hty, hdirs⟩ := collectNode_covers h1
                refine ⟨⟨covers_mono (fun n hn =>
                    namesOf_append_left (namesOf_append_left hn)) hty,
                  fun d hd => covers_mono (fun n hn =>
                    namesOf_append_left (namesOf_append_left hn))
                    (hdirs d hd)⟩, ?_⟩
                intro v hv
                obtain ⟨hty2, hdirs2⟩ := collectInputValues_covers ha v hv
                exact ⟨covers_mono (fun n hn =>
                    namesOf_append_left (namesOf_append_right hn)) hty2,
                  fun d hd => covers_mono (fun n hn =>
                    namesOf_append_left (namesOf_append_right hn))
                    (hdirs2 d hd)⟩
              · obtain ⟨⟨hty, hdirs⟩, hargs⟩ := hcov fl2 h3
                refine ⟨⟨covers_mono (fun n hn =>
                    namesOf_append_right hn) hty,
                  fun d hd => covers_mono (fun n hn =>
                    namesOf_append_right hn) (hdirs d hd)⟩, ?_⟩
                intro v hv
                obtain ⟨hty2, hdirs2⟩ := hargs v hv
                exact ⟨covers_mono (fun n hn =>
                    namesOf_append_right hn) hty2,
                  fun d hd => covers_mono (fun n hn =>
                    namesOf_append_right hn) (hdirs2 d hd)⟩
            · intro x hx
              rcases List.mem_append.mp hx with h3 | h3
              rcases List.mem_append.mp h3 with h4 | h4
              · exact (collect_mem_all f pool allD).2.2.1 fl.name fl.type
                  fl.directives l h1 x h4
              · exact (collect_mem_all f pool allD).2.2.2 fl.arguments a
                  ha x h4
              · exact hmem x h3


/-- Only object definitions implement interfaces. -/
theorem implementsInterface_isObject {d : ValidDefinitionNode} {n : String}
    (h : d.implementsInterface n = true) : d.isObject = true := by
  cases d <;> simp [ValidDefinitionNode.implementsInterface,
    ValidDefinitionNode.isObject] at h ⊢

/-- Everything collectNewTypeDefinitions pushes comes from
allDefinitions. -/
theorem collectNewTypeDefinitions_mem {f : Nat}
    {allDefinitions definitionPool : List ValidDefinitionNode}
    {newDefinition : ValidDefinitionNode} {L : List ValidDefinitionNode}
    (h : collectNewTypeDefinitions f allDefinitions definitionPool
        newDefinition = .ok L) :
    ∀ x ∈ L, x ∈ allDefinitions := by
  cases newDefinition with
  | directiveDef n args =>
      simp only [collectNewTypeDefinitions] at h
      cases h
      simp
  | scalarDef n dirs =>
      simp only [collectNewTypeDefinitions] at h
      exact (collect_mem_all f definitionPool allDefinitions).2.1 dirs L h
  | enumDef n dirs vs =>
      simp only [collectNewTypeDefinitions] at h
      exact (collect_mem_all f definitionPool allDefinitions).2.1 dirs L h
  | inputObjectDef n dirs fields =>
      simp only [collectNewTypeDefinitions] at h
      rcases h1 : collectDirectives f definitionPool allDefinitions dirs
        with e | dl
      · simp [h1] at h
      · simp only [h1] at h
        rcases h2 : collectInputValues f definitionPool allDefinitions
            fields with e | fl2
        · simp [h2] at h
        · simp only [h2] at h
          cases h
          intro x hx
          rcases List.mem_append.mp hx with h3 | h3
          · exact (collect_mem_all f definitionPool allDefinitions).2.1
              dirs dl h1 x h3
          · exact (collect_mem_all f definitionPool
              allDefinitions).2.2.2 fields fl2 h2 x h3
  | interfaceDef n dirs fields =>
      simp only [collectNewTypeDefinitions] at h
      rcases h1 : collectDirectives f definitionPool allDefinitions dirs
        with e | dl
      · simp [h1] at h
      · simp only [h1] at h
        rcases h2 : collectInterfaceFields f definitionPool allDefinitions
            fields with e | fl2
        · simp [h2] at h
        · simp only [h2] at h
          cases h
          intro x hx
          rcases List.mem_append.mp hx with h3 | h3
          rcases List.mem_append.mp h3 with h4 | h4
          · exact (collect_mem_all f definitionPool allDefinitions).2.1
              dirs dl h1 x h4
          · exact (collectInterfaceFields_covers h2).2 x h4
          · exact List.mem_of_mem_filter h3
  | unionDef n dirs types =>
      simp only [collectNewTypeDefinitions] at h
      rcases h1 : collectDirectives f definitionPool allDefinitions dirs
        with e | dl
      · simp [h1] at h
      · simp only [h1] at h
        rcases h2 : collectUnionMembers definitionPool allDefinitions
            types with e | tl
        · simp [h2] at h
        · simp only [h2] at h
          cases h
          intro x hx
          rcases List.mem_append.mp hx with h3 | h3
          · exact (collect_mem_all f definitionPool allDefinitions).2.1
              dirs dl h1 x h3
          · exact (collectUnionMembers_covers h2).2 x h3
  | objectDef n interfaces dirs fields =>
      simp only [collectNewTypeDefinitions] at h
      rcases h1 : collectDirectives f definitionPool allDefinitions dirs
        with e | dl
      · simp [h1] at h
      · simp only [h1] at h
        rcases h2 : collectObjectInterfaces definitionPool allDefinitions
            interfaces with e | il
        · simp [h2] at h
        · simp only [h2] at h
          rcases h3 : collectObjectFields f definitionPool allDefinitions
              fields with e | fl2
          · simp [h3] at h
          · simp only [h3] at h
            cases h
            intro x hx
            rcases List.mem_append.mp hx with h4 | h4
            rcases List.mem_append.mp h4 with h5 | h5
            · exact (collect_mem_all f definitionPool allDefinitions).2.1
                dirs dl h1 x h5
            · exact (collectObjectInterfaces_covers h2).2 x h5
            · exact (collectObjectFields_covers h3).2 x h4

/-- After an interface definition is expanded, every object of
allDefinitions implementing it is among the pushed definitions. -/
theorem collectNewTypeDefinitions_interface {f : Nat}
    {allDefinitions definitionPool : List ValidDefinitionNode}
    {n : String} {dirs : List DirectiveNode}
    {fields : List FieldDefinitionNode} {L : List ValidDefinitionNode}
    (h : collectNewTypeDefinitions f allDefinitions definitionPool
        (.interfaceDef n dirs fields) = .ok L) :
    ∀ o ∈ allDefinitions, o.implementsInterface n = true → o ∈ L := by
  simp only [collectNewTypeDefinitions] at h
  rcases h1 : collectDirectives f definitionPool allDefinitions dirs
    with e | dl
  · simp [h1] at h
  · simp only [h1] at h
    rcases h2 : collectInterfaceFields f definitionPool allDefinitions
        fields with e | fl2
    · simp [h2] at h
    · simp only [h2] at h
      cases h
      intro o ho himpl
      refine List.mem_append.mpr (Or.inr ?_)
      refine List.mem_filter.mpr ⟨ho, ?_⟩
      simp [implementsInterface_isObject himpl, himpl]


/-- Membership shape of directiveRefs. -/
theorem mem_directiveRefs {r : Reference} {dirs : List DirectiveNode}
    (h : r ∈ directiveRefs dirs) :
    ∃ d ∈ dirs, r = .directiveRef d.name := by
  simp only [directiveRefs, List.mem_map] at h
  obtain ⟨d, hd, he⟩ := h
  exact ⟨d, hd, he.symm⟩

/-- Every reference the engine resolves while expanding a definition is
covered by the pool or the pushed definitions. -/
theorem collectNewTypeDefinitions_covers {f : Nat}
    {allDefinitions definitionPool : List ValidDefinitionNode}
    {newDefinition : ValidDefinitionNode} {L : List ValidDefinitionNode}
    (h : collectNewTypeDefinitions f allDefinitions definitionPool
        newDefinition = .ok L) :
    ∀ r ∈ engineRefs newDefinition, covers definitionPool L r := by
  cases newDefinition with
  | directiveDef n args =>
      intro r hr
      simp [engineRefs] at hr
  | scalarDef n dirs =>
      simp only [collectNewTypeDefinitions] at h
      intro r hr
      obtain ⟨d, hd, he⟩ := mem_directiveRefs hr
      exact he ▸ collectDirectives_covers h d hd
  | enumDef n dirs vs =>
      simp only [collectNewTypeDefinitions] at h
      intro r hr
      obtain ⟨d, hd, he⟩ := mem_directiveRefs hr
      exact he ▸ collectDirectives_covers h d hd
  | inputObjectDef n dirs fields =>
      simp only [collectNewTypeDefinitions] at h
      rcases h1 : collectDirectives f definitionPool allDefinitions dirs
        with e | dl
      · simp [h1] at h
      · simp only [h1] at h
        rcases h2 : collectInputValues f definitionPool allDefinitions
            fields with e | fl2
        · simp [h2] at h
        · simp only [h2] at h
          cases h
          intro r hr
          simp only [engineRefs, List.mem_append] at hr
          rcases hr with hr | hr
          · obtain ⟨d, hd, he⟩ := mem_directiveRefs hr
            exact he ▸ covers_mono (fun n2 hn => namesOf_append_left hn)
              (collectDirectives_covers h1 d hd)
          · simp only [List.mem_flatMap, inputValueEngineRefs,
              nodeEngineRefs, List.mem_cons] at hr
            obtain ⟨v, hv, hrv⟩ := hr
            obtain ⟨hty, hdirs⟩ := collectInputValues_covers h2 v hv
            rcases hrv with hrv | hrv
            · exact hrv ▸ covers_mono
                (fun n2 hn => namesOf_append_right hn) hty
            · obtain ⟨d, hd, he⟩ := mem_directiveRefs hrv
              exact he ▸ covers_mono
                (fun n2 hn => namesOf_append_right hn) (hdirs d hd)
  | interfaceDef n dirs fields =>
      simp only [collectNewTypeDefinitions] at h
      rcases h1 : collectDirectives f definitionPool allDefinitions dirs
        with e | dl
      · simp [h1] at h
      · simp only [h1] at h
        rcases h2 : collectInterfaceFields f definitionPool allDefinitions
            fields with e | fl2
        · simp [h2] at h
        · simp only [h2] at h
          cases h
          intro r hr
          simp only [engineRefs, List.mem_append] at hr
          rcases hr with hr | hr
          · obtain ⟨d, hd, he⟩ := mem_directiveRefs hr
            exact he ▸ covers_mono (fun n2 hn =>
                namesOf_append_left (namesOf_append_left hn))
              (collectDirectives_covers h1 d hd)
          · simp only [List.mem_flatMap, nodeEngineRefs,
              List.mem_cons] at hr
            obtain ⟨fl, hfl, hrv⟩ := hr
            obtain ⟨hty, hdirs⟩ := (collectInterfaceFields_covers h2).1
              fl hfl
            rcases hrv with hrv | hrv
            · exact hrv ▸ covers_mono (fun n2 hn =>
                namesOf_append_left (namesOf_append_right hn)) hty
            · obtain ⟨d, hd, he⟩ := mem_directiveRefs hrv
              exact he ▸ covers_mono (fun n2 hn =>
                namesOf_append_left (namesOf_append_right hn))
                (hdirs d hd)
  | unionDef n dirs types =>
      simp only [collectNewTypeDefinitions] at h
      rcases h1 : collectDirectives f definitionPool allDefinitions dirs
        with e | dl
      · simp [h1] at h
      · simp only [h1] at h
        rcases h2 : collectUnionMembers definitionPool allDefinitions
            types with e | tl
        · simp [h2] at h
        · simp only [h2] at h
          cases h
          intro r hr
          simp only [engineRefs, List.mem_append] at hr
          rcases hr with hr | hr
          · obtain ⟨d, hd, he⟩ := mem_directiveRefs hr
            exact he ▸ covers_mono (fun n2 hn => namesOf_append_left hn)
              (collectDirectives_covers h1 d hd)
          · simp only [List.mem_map] at hr
            obtain ⟨t, ht, he⟩ := hr
            rcases (collectUnionMembers_covers h2).1 t ht with h3 | h3
            · exact he ▸ Or.inr (Or.inl (by
                simpa [Reference.name] using h3))
            · refine he ▸ Or.inr (Or.inr ?_)
              simpa [Reference.name] using namesOf_append_right h3
  | objectDef n interfaces dirs fields =>
      simp only [collectNewTypeDefinitions] at h
      rcases h1 : collectDirectives f definitionPool allDefinitions dirs
        with e | dl
      · simp [h1] at h
      · simp only [h1] at h
        rcases h2 : collectObjectInterfaces definitionPool allDefinitions
            interfaces with e | il
        · simp [h2] at h
        · simp only [h2] at h
          rcases h3 : collectObjectFields f definitionPool allDefinitions
              fields with e | fl2
          · simp [h3] at h
          · simp only [h3] at h
            cases h
            intro r hr
            simp only [engineRefs, List.mem_append] at hr
            rcases hr with (hr | hr) | hr
            · obtain ⟨d, hd, he⟩ := mem_directiveRefs hr
              exact he ▸ covers_mono (fun n2 hn =>
                  namesOf_append_left (namesOf_append_left hn))
                (collectDirectives_covers h1 d hd)
            · simp only [List.mem_map] at hr
              obtain ⟨t, ht, he⟩ := hr
              rcases (collectObjectInterfaces_covers h2).1 t ht with
                h4 | h4
              · exact he ▸ Or.inr (Or.inl (by
                  simpa [Reference.name] using h4))
              · refine he ▸ Or.inr (Or.inr ?_)
                have : t ∈ namesOf (dl ++ il ++ fl2) :=
                  namesOf_append_left (namesOf_append_right h4)
                simpa [Reference.name] using this
            · simp only [List.mem_flatMap, List.mem_append,
                nodeEngineRefs, List.mem_cons] at hr
              obtain ⟨fl, hfl, hrv⟩ := hr
              obtain ⟨⟨hty, hdirs⟩, hargs⟩ :=
                (collectObjectFields_covers h3).1 fl hfl
              rcases hrv with (hrv | hrv) | hrv
              · exact hrv ▸ covers_mono (fun n2 hn =>
                  namesOf_append_right hn) hty
              · obtain ⟨d, hd, he⟩ := mem_directiveRefs hrv
                exact he ▸ covers_mono (fun n2 hn =>
                  namesOf_append_right hn) (hdirs d hd)
              · simp only [List.mem_flatMap, inputValueEngineRefs,
                  nodeEngineRefs, List.mem_cons] at hrv
                obtain ⟨v, hv, hrv2⟩ := hrv
                obtain ⟨hty2, hdirs2⟩ := hargs v hv
                rcases hrv2 with hrv2 | hrv2
                · exact hrv2 ▸ covers_mono (fun n2 hn =>
                    namesOf_append_right hn) hty2
                · obtain ⟨d, hd, he⟩ := mem_directiveRefs hrv2
                  exact he ▸ covers_mono (fun n2 hn =>
                    namesOf_append_right hn) (hdirs2 d hd)


/-- NamesUnique restricts to sublists (memberwise). -/
theorem namesUnique_subset {l1 l2 : List ValidDefinitionNode}
    (hsub : ∀ x ∈ l2, x ∈ l1) (h : NamesUnique l1) : NamesUnique l2 :=
  fun d1 h1 d2 h2 he => h d1 (hsub _ h1) d2 (hsub _ h2) he

/-- Membership in the three-part combined list. -/
theorem mem_combined {allD pool pending : List ValidDefinitionNode}
    {x : ValidDefinitionNode} :
    x ∈ allD ++ pool ++ pending ↔
      (x ∈ allD ∨ x ∈ pool ∨ x ∈ pending) := by
  simp [List.mem_append, or_assoc]

/-- Invariant of the completeDefinitionPool work-list loop: when every
pool definition is either already expanded or still pending, no two
definitions in play share a name without being equal, and the already
visited names have their engine references resolved into the pool, then
the final grown pool extends the pool, draws only on definitions in play,
has every engine reference of each member resolvable among its names, and
contains every implementation of each interface member. -/
theorem completePoolLoop_inv
    (allDefinitions : List ValidDefinitionNode) :
    ∀ (fuel : Nat) (pending pool : List ValidDefinitionNode)
      (visited : List String) (out : List ValidDefinitionNode),
    completePoolLoop fuel allDefinitions pool pending visited = .ok out →
    NamesUnique (allDefinitions ++ pool ++ pending) →
    (∀ d ∈ pool, d.name ∈ visited ∨ d ∈ pending) →
    (∀ n ∈ visited, ∀ d,
        (d ∈ allDefinitions ∨ d ∈ pool ∨ d ∈ pending) → d.name = n →
        ∀ r ∈ engineRefs d,
          r.isBuiltin = true ∨ r.name ∈ namesOf pool) →
    (∀ n ∈ visited, ∀ d,
        (d ∈ allDefinitions ∨ d ∈ pool ∨ d ∈ pending) → d.name = n →
        d.isInterface = true →
        ∀ o ∈ allDefinitions, o.implementsInterface n = true →
          o ∈ pool) →
    (∃ ext, out = pool ++ ext)
    ∧ (∀ d ∈ out, d ∈ allDefinitions ∨ d ∈ pool ∨ d ∈ pending)
    ∧ (∀ d ∈ out, ∀ r ∈ engineRefs d,
        r.isBuiltin = true ∨ r.name ∈ namesOf out)
    ∧ (∀ I ∈ out, I.isInterface = true →
        ∀ o ∈ allDefinitions, o.implementsInterface I.name = true →
          o ∈ out) := by
  intro fuel
  induction fuel with
  | zero =>
      intro pending pool visited out h hNU hA hC hD
      cases pending with
      | cons d rest => exact absurd h (by simp [completePoolLoop])
      | nil =>
          simp only [completePoolLoop] at h
          cases h
          refine ⟨⟨[], by simp⟩, fun d hd => Or.inr (Or.inl hd), ?_, ?_⟩
          · intro d hd r hr
            have hvis : d.name ∈ visited := by
              rcases hA d hd with h1 | h1
              · exact h1
              · simp at h1
            exact hC d.name hvis d (Or.inr (Or.inl hd)) rfl r hr
          · intro I hI hint o ho himpl
            have hvis : I.name ∈ visited := by
              rcases hA I hI with h1 | h1
              · exact h1
              · simp at h1
            exact hD I.name hvis I (Or.inr (Or.inl hI)) rfl hint o ho
              himpl
  | succ f ih =>
      intro pending pool visited out h hNU hA hC hD
      cases pending with
      | nil =>
          simp only [completePoolLoop] at h
          cases h
          refine ⟨⟨[], by simp⟩, fun d hd => Or.inr (Or.inl hd), ?_, ?_⟩
          · intro d hd r hr
            have hvis : d.name ∈ visited := by
              rcases hA d hd with h1 | h1
              · exact h1
              · simp at h1
            exact hC d.name hvis d (Or.inr (Or.inl hd)) rfl r hr
          · intro I hI hint o ho himpl
            have hvis : I.name ∈ visited := by
              rcases hA I hI with h1 | h1
              · exact h1
              · simp at h1
            exact hD I.name hvis I (Or.inr (Or.inl hI)) rfl hint o ho
              himpl
      | cons d rest =>
          simp only [completePoolLoop] at h
          by_cases hv : visited.contains d.name = true
          · rw [if_pos hv] at h
            have hvm : d.name ∈ visited := by simpa using hv
            have hsub : ∀ x ∈ allDefinitions ++ pool ++ rest,
                x ∈ allDefinitions ++ pool ++ (d :: rest) := by
              intro x hx
              rcases mem_combined.mp hx with h1 | h1 | h1
              · exact mem_combined.mpr (Or.inl h1)
              · exact mem_combined.mpr (Or.inr (Or.inl h1))
              · exact mem_combined.mpr
                  (Or.inr (Or.inr (List.mem_cons_of_mem d h1)))
            obtain ⟨hext, hmem, hcov, hint⟩ := ih rest pool visited out h
              (namesUnique_subset hsub hNU)
              (by
                intro d2 hd2
                rcases hA d2 hd2 with h1 | h1
                · exact Or.inl h1
                · rcases List.mem_cons.mp h1 with h2 | h2
                  · exact Or.inl (h2 ▸ hvm)
                  · exact Or.inr h2)
              (by
                intro n hn d2 hd2 hname r hr
                refine hC n hn d2 ?_ hname r hr
                rcases hd2 with h1 | h1 | h1
                · exact Or.inl h1
                · exact Or.inr (Or.inl h1)
                · exact Or.inr (Or.inr (List.mem_cons_of_mem d h1)))
              (by
                intro n hn d2 hd2 hname hisi o ho himpl
                refine hD n hn d2 ?_ hname hisi o ho himpl
                rcases hd2 with h1 | h1 | h1
                · exact Or.inl h1
                · exact Or.inr (Or.inl h1)
                · exact Or.inr (Or.inr (List.mem_cons_of_mem d h1)))
            refine ⟨hext, ?_, hcov, hint⟩
            intro d2 hd2
            rcases hmem d2 hd2 with h1 | h1 | h1
            · exact Or.inl h1
            · exact Or.inr (Or.inl h1)
            · exact Or.inr (Or.inr (List.mem_cons_of_mem d h1))
          · rw [if_neg hv] at h
            rcases hc : collectNewTypeDefinitions f allDefinitions pool d
              with e | L
            · rw [hc] at h
              exact absurd h (by simp)
            · rw [hc] at h
              have hmemL : ∀ x ∈ L, x ∈ allDefinitions :=
                collectNewTypeDefinitions_mem hc
              have hcovL : ∀ r ∈ engineRefs d, covers pool L r :=
                collectNewTypeDefinitions_covers hc
              have hdp : d ∈ allDefinitions ++ pool ++ (d :: rest) :=
                mem_combined.mpr (Or.inr (Or.inr (List.mem_cons_self _ _)))
              have hback : ∀ x,
                  (x ∈ allDefinitions ∨ x ∈ pool ++ L ∨ x ∈ rest ++ L) →
                  (x ∈ allDefinitions ∨ x ∈ pool ∨ x ∈ d :: rest) := by
                intro x hx
                rcases hx with h1 | h1 | h1
                · exact Or.inl h1
                · rcases List.mem_append.mp h1 with h2 | h2
                  · exact Or.inr (Or.inl h2)
                  · exact Or.inl (hmemL x h2)
                · rcases List.mem_append.mp h1 with h2 | h2
                  · exact Or.inr (Or.inr (List.mem_cons_of_mem d h2))
                  · exact Or.inl (hmemL x h2)
              have hsub : ∀ x ∈ allDefinitions ++ (pool ++ L)
                    ++ (rest ++ L),
                  x ∈ allDefinitions ++ pool ++ (d :: rest) := by
                intro x hx
                rcases (hback x (mem_combined.mp hx)) with h1 | h1 | h1
                · exact mem_combined.mpr (Or.inl h1)
                · exact mem_combined.mpr (Or.inr (Or.inl h1))
                · exact mem_combined.mpr (Or.inr (Or.inr h1))
              obtain ⟨hext, hmem, hcov, hint⟩ := ih (rest ++ L)
                (pool ++ L) (d.name :: visited) out h
                (namesUnique_subset hsub hNU)
                (by
                  intro d2 hd2
                  rcases List.mem_append.mp hd2 with h1 | h1
                  · rcases hA d2 h1 with h2 | h2
                    · exact Or.inl (List.mem_cons_of_mem _ h2)
                    · rcases List.mem_cons.mp h2 with h3 | h3
                      · exact Or.inl (by
                          rw [h3]
                          exact List.mem_cons_self _ _)
                      · exact Or.inr (List.mem_append.mpr (Or.inl h3))
                  · exact Or.inr (List.mem_append.mpr (Or.inr h1)))
                (by
                  intro n hn d2 hd2 hname r hr
                  rcases List.mem_cons.mp hn with h1 | h1
                  · subst h1
                    have hd2mem : d2 ∈ allDefinitions ++ pool
                        ++ (d :: rest) :=
                      mem_combined.mpr (hback d2 hd2)
                    have : d2 = d := hNU d2 hd2mem d hdp hname
                    subst this
                    rcases hcovL r hr with h2 | h2 | h2
                    · exact Or.inl h2
                    · exact Or.inr (namesOf_append_left h2)
                    · exact Or.inr (namesOf_append_right h2)
                  · have := hC n h1 d2 (hback d2 hd2) hname r hr
                    rcases this with h2 | h2
                    · exact Or.inl h2
                    · exact Or.inr (namesOf_append_left h2))
                (by
                  intro n hn d2 hd2 hname hisi o ho himpl
                  rcases List.mem_cons.mp hn with h1 | h1
                  · subst h1
                    have hd2mem : d2 ∈ allDefinitions ++ pool
                        ++ (d :: rest) :=
                      mem_combined.mpr (hback d2 hd2)
                    have heq : d2 = d := hNU d2 hd2mem d hdp hname
                    subst heq
                    cases d2 with
                    | interfaceDef n3 dirs3 fields3 =>
                        refine List.mem_append.mpr (Or.inr ?_)
                        exact collectNewTypeDefinitions_interface hc o ho
                          himpl
                    | directiveDef a b =>
                        simp [ValidDefinitionNode.isInterface] at hisi
                    | scalarDef a b =>
                        simp [ValidDefinitionNode.isInterface] at hisi
                    | objectDef a b c e2 =>
                        simp [ValidDefinitionNode.isInterface] at hisi
                    | unionDef a b c =>
                        simp [ValidDefinitionNode.isInterface] at hisi
                    | enumDef a b c =>
                        simp [ValidDefinitionNode.isInterface] at hisi
                    | inputObjectDef a b c =>
                        simp [ValidDefinitionNode.isInterface] at hisi
                  · exact List.mem_append.mpr (Or.inl
                      (hD n h1 d2 (hback d2 hd2) hname hisi o ho himpl)))
              refine ⟨?_, ?_, hcov, hint⟩
              · obtain ⟨ext, hout⟩ := hext
                exact ⟨L ++ ext, by simp [hout]⟩
              · intro d2 hd2
                exact hback d2 (hmem d2 hd2)


/-! ## Claims C1 and C4: closure and interface completeness -/

/-- A directive definition whose argument references the type Role. -/
def authDirectiveDef : ValidDefinitionNode :=
  .directiveDef "auth" [⟨"role", .namedType "Role", []⟩]

/-- Claim C1, counterexample: a directive definition reaching the pool
through the import seed is expanded to nothing, so the argument type Role
it syntactically references is neither builtin nor present in the output;
the output of completeDefinitionPool violates the claimed syntactic
closure. -/
theorem c1_counterexample :
    completeDefinitionPool 2 [authDirectiveDef] [authDirectiveDef]
        [authDirectiveDef] = .ok [authDirectiveDef]
    ∧ Reference.typeRef "Role" ∈ syntacticRefs authDirectiveDef
    ∧ (Reference.typeRef "Role").isBuiltin = false
    ∧ ([authDirectiveDef].any (fun d2 => d2.name = "Role")) = false := by
  decide

/-- Claim C1, amended: for every run of completeDefinitionPool in which
the seed pool is contained in the work list and no two definitions in
play share a name (as when importSchema collects a corpus without
duplicate type names), every reference the engine tracks — which omits
the argument types of directive definitions, the argument types of
interface fields and the directives applied to enum values — is builtin
or carried by a definition of the output. -/
theorem c1_closure_amended (fuel : Nat)
    (allDefinitions definitionPool newTypeDefinitions out :
      List ValidDefinitionNode)
    (h : completeDefinitionPool fuel allDefinitions definitionPool
        newTypeDefinitions = .ok out)
    (hNU : NamesUnique (allDefinitions ++ definitionPool
        ++ newTypeDefinitions))
    (hseed : ∀ d ∈ definitionPool, d ∈ newTypeDefinitions) :
    ∀ d ∈ out, ∀ r ∈ engineRefs d,
      r.isBuiltin = true ∨ ∃ d2 ∈ out, d2.name = r.name := by
  unfold completeDefinitionPool at h
  rcases hloop : completePoolLoop fuel allDefinitions definitionPool
      newTypeDefinitions [] with e | grown
  · rw [hloop] at h
    exact absurd h (by simp)
  · rw [hloop] at h
    cases h
    obtain ⟨hext, hmem, hcov, hint⟩ := completePoolLoop_inv
      allDefinitions fuel newTypeDefinitions definitionPool [] grown
      hloop hNU
      (fun d hd => Or.inr (hseed d hd))
      (by intro n hn; simp at hn)
      (by intro n hn; simp at hn)
    intro d hd r hr
    have hdgrown : d ∈ grown := uniqByNameAux_subset hd
    rcases hcov d hdgrown r hr with h1 | h1
    · exact Or.inl h1
    · refine Or.inr ?_
      have hex : ∃ d2 ∈ grown, d2.name = r.name := by
        simpa [namesOf, List.mem_map] using h1
      exact (uniqByName_names grown r.name).mpr hex

/-- Witness for the amended claim C1: an object referencing type B pulls
the definition of B into the output. -/
theorem c1_closure_amended_witness :
    completeDefinitionPool 10
        [ValidDefinitionNode.objectDef "A" [] []
          [⟨"b", [], .namedType "B", []⟩],
         ValidDefinitionNode.objectDef "B" [] [] []]
        [ValidDefinitionNode.objectDef "A" [] []
          [⟨"b", [], .namedType "B", []⟩]]
        [ValidDefinitionNode.objectDef "A" [] []
          [⟨"b", [], .namedType "B", []⟩]]
      = .ok [ValidDefinitionNode.objectDef "A" [] []
          [⟨"b", [], .namedType "B", []⟩],
         ValidDefinitionNode.objectDef "B" [] [] []]
    ∧ ((Reference.typeRef "B").isBuiltin = true
        ∨ ∃ d2 ∈ [ValidDefinitionNode.objectDef "A" [] []
            [⟨"b", [], .namedType "B", []⟩],
           ValidDefinitionNode.objectDef "B" [] [] []],
          d2.name = (Reference.typeRef "B").name) := by
  refine ⟨by decide, ?_⟩
  exact c1_closure_amended 10
    [ValidDefinitionNode.objectDef "A" [] []
      [⟨"b", [], .namedType "B", []⟩],
     ValidDefinitionNode.objectDef "B" [] [] []]
    [ValidDefinitionNode.objectDef "A" [] []
      [⟨"b", [], .namedType "B", []⟩]]
    [ValidDefinitionNode.objectDef "A" [] []
      [⟨"b", [], .namedType "B", []⟩]]
    [ValidDefinitionNode.objectDef "A" [] []
      [⟨"b", [], .namedType "B", []⟩],
     ValidDefinitionNode.objectDef "B" [] [] []]
    (by decide) (by decide) (by decide)
    (ValidDefinitionNode.objectDef "A" [] []
      [⟨"b", [], .namedType "B", []⟩])
    (by decide) (Reference.typeRef "B") (by decide)

/-- An enum named I shadowing an interface named I. -/
def enumIDef : ValidDefinitionNode :=
  .enumDef "I" [] []

/-- The interface named I. -/
def interfaceIDef : ValidDefinitionNode :=
  .interfaceDef "I" [] []

/-- An object implementing the interface I. -/
def objADef : ValidDefinitionNode :=
  .objectDef "A" ["I"] [] []

/-- An object whose field references I. -/
def objBDef : ValidDefinitionNode :=
  .objectDef "B" [] [] [⟨"f", [], .namedType "I", []⟩]

/-- Claim C4, counterexample: with two definitions named I, the enum
named I is expanded first and marks the name visited, so the interface
named I that later enters the pool through a field reference is never
expanded and its implementation A is not pulled in although the interface
is present in the output. -/
theorem c4_counterexample :
    completeDefinitionPool 10 [enumIDef, interfaceIDef, objADef]
        [objBDef] [objBDef, enumIDef]
      = .ok [objBDef, interfaceIDef]
    ∧ interfaceIDef.isInterface = true
    ∧ objADef ∈ [enumIDef, interfaceIDef, objADef]
    ∧ objADef.implementsInterface interfaceIDef.name = true
    ∧ objADef ∉ [objBDef, interfaceIDef] := by
  decide

/-- Claim C4, amended: in every run of completeDefinitionPool whose seed
pool is contained in the work list and in which no two definitions in
play share a name, every object of allDefinitions implementing an
interface present in the output is itself present in the output. -/
theorem c4_interface_completeness_amended (fuel : Nat)
    (allDefinitions definitionPool newTypeDefinitions out :
      List ValidDefinitionNode)
    (h : completeDefinitionPool fuel allDefinitions definitionPool
        newTypeDefinitions = .ok out)
    (hNU : NamesUnique (allDefinitions ++ definitionPool
        ++ newTypeDefinitions))
    (hseed : ∀ d ∈ definitionPool, d ∈ newTypeDefinitions) :
    ∀ I ∈ out, I.isInterface = true →
      ∀ o ∈ allDefinitions, o.implementsInterface I.name = true →
        o ∈ out := by
  unfold completeDefinitionPool at h
  rcases hloop : completePoolLoop fuel allDefinitions definitionPool
      newTypeDefinitions [] with e | grown
  · rw [hloop] at h
    exact absurd h (by simp)
  · rw [hloop] at h
    cases h
    obtain ⟨hext, hmem, hcov, hint⟩ := completePoolLoop_inv
      allDefinitions fuel newTypeDefinitions definitionPool [] grown
      hloop hNU
      (fun d hd => Or.inr (hseed d hd))
      (by intro n hn; simp at hn)
      (by intro n hn; simp at hn)
    intro I hI hisi o ho himpl
    have hIgrown : I ∈ grown := uniqByNameAux_subset hI
    have hogrown : o ∈ grown := hint I hIgrown hisi o ho himpl
    obtain ⟨o2, ho2, ho2name⟩ :=
      (uniqByName_names grown o.name).mpr ⟨o, hogrown, rfl⟩
    have ho2grown : o2 ∈ grown := uniqByNameAux_subset ho2
    have ho2comb : o2 ∈ allDefinitions ++ definitionPool
        ++ newTypeDefinitions := by
      rcases hmem o2 ho2grown with h1 | h1 | h1
      · exact mem_combined.mpr (Or.inl h1)
      · exact mem_combined.mpr (Or.inr (Or.inl h1))
      · exact mem_combined.mpr (Or.inr (Or.inr h1))
    have hocomb : o ∈ allDefinitions ++ definitionPool
        ++ newTypeDefinitions := mem_combined.mpr (Or.inl ho)
    have : o2 = o := hNU o2 ho2comb o hocomb ho2name
    exact this ▸ ho2

/-- Witness for the amended claim C4: the interface I in the seed pulls
its implementation A into the output. -/
theorem c4_interface_completeness_amended_witness :
    completeDefinitionPool 10 [interfaceIDef, objADef] [interfaceIDef]
        [interfaceIDef]
      = .ok [interfaceIDef, objADef]
    ∧ objADef ∈ [interfaceIDef, objADef] := by
  refine ⟨by decide, ?_⟩
  exact c4_interface_completeness_amended 10 [interfaceIDef, objADef]
    [interfaceIDef] [interfaceIDef] [interfaceIDef, objADef] (by decide)
    (by decide) (by decide) interfaceIDef (by decide) (by decide)
    objADef (by decide) (by decide)


/-! ## Claim C3: root-operation merge -/

/-- The name of the node at a store index. -/
def nameAt (store0 : List ValidDefinitionNode) (i : Nat) : String :=
  (getDef store0 i).name

/-- The indices of L whose node carries the name n, in order. -/
def occsOf (store0 : List ValidDefinitionNode) (L : List Nat) (n : String) :
    List Nat :=
  L.filter (fun i => nameAt store0 i = n)

/-- Fields of an object definition (empty for other kinds). -/
def fieldsOfObject : ValidDefinitionNode → List FieldDefinitionNode
  | .objectDef _ _ _ f => f
  | _ => []

/-- Replace the fields of an object definition; other kinds unchanged. -/
def setObjFields : ValidDefinitionNode → List FieldDefinitionNode →
    ValidDefinitionNode
  | .objectDef n ifs dirs _, flds => .objectDef n ifs dirs flds
  | d, _ => d

/-- The concatenation of the field lists of all occurrences of name n in
L, in order. -/
def mergedFields (store0 : List ValidDefinitionNode) (L : List Nat)
    (n : String) : List FieldDefinitionNode :=
  ((occsOf store0 L n).map
    (fun i => fieldsOfObject (getDef store0 i))).flatten

/-- setObjFields preserves the name. -/
theorem setObjFields_name (d : ValidDefinitionNode)
    (flds : List FieldDefinitionNode) :
    (setObjFields d flds).name = d.name := by
  cases d <;> simp [setObjFields, ValidDefinitionNode.name]

/-- Reading a store at an index other than the one just set. -/
theorem getDef_setDef_ne {store : List ValidDefinitionNode} {i j : Nat}
    {d : ValidDefinitionNode} (h : i ≠ j) :
    getDef (setDef store j d) i = getDef store i := by
  simp [getDef, setDef, List.getD, List.getElem?_set_ne (fun hc => h hc.symm)]

/-- setDef preserves the length. -/
theorem setDef_length (store : List ValidDefinitionNode) (j : Nat)
    (d : ValidDefinitionNode) : (setDef store j d).length = store.length := by
  simp [setDef]

/-- Occurrences in an extended index list. -/
theorem occsOf_append_single (store0 : List ValidDefinitionNode)
    (P : List Nat) (idx : Nat) (m : String) :
    occsOf store0 (P ++ [idx]) m
      = occsOf store0 P m
        ++ (if nameAt store0 idx = m then [idx] else []) := by
  simp only [occsOf, List.filter_append]
  congr 1
  by_cases h : nameAt store0 idx = m <;> simp [h]

/-- Head of an append with a non-empty left part. -/
theorem head?_append_of_ne_nil {α : Type} {l l2 : List α} (h : l ≠ []) :
    (l ++ l2).head? = l.head? := by
  cases l with
  | nil => exact absurd rfl h
  | cons a t => simp

/-- The repeated in-place concat of the merge loop as a fold: the first
occurrence of a name, with the fields of every later occurrence
concatenated onto it in order by concatFields. -/
def concatAll :
    ValidDefinitionNode → List ValidDefinitionNode →
      Option ValidDefinitionNode
  | base, [] => some base
  | base, l :: ls =>
      match concatFields base l with
      | none => none
      | some m => concatAll m ls

/-- concatFields keeps the name of the existing node. -/
theorem concatFields_name {a b c : ValidDefinitionNode}
    (h : concatFields a b = some c) : c.name = a.name := by
  cases a <;> simp only [concatFields] at h <;> cases h <;> rfl

/-- concatAll keeps the name of the base node. -/
theorem concatAll_name :
    ∀ (ls : List ValidDefinitionNode) {b c : ValidDefinitionNode},
    concatAll b ls = some c → c.name = b.name := by
  intro ls
  induction ls with
  | nil =>
      intro b c h
      simp only [concatAll] at h
      cases h
      rfl
  | cons l t ih =>
      intro b c h
      simp only [concatAll] at h
      rcases hcf : concatFields b l with _ | m
      · simp only [hcf] at h
        exact absurd h (by simp)
      · simp only [hcf] at h
        rw [ih h]
        exact concatFields_name hcf

/-- concatAll over a list extended by one later node. -/
theorem concatAll_append_single (x : ValidDefinitionNode) :
    ∀ (ls : List ValidDefinitionNode) (b : ValidDefinitionNode),
    concatAll b (ls ++ [x])
      = match concatAll b ls with
        | none => none
        | some m => concatFields m x := by
  intro ls
  induction ls with
  | nil =>
      intro b
      simp only [List.nil_append, concatAll]
      rcases hcf : concatFields b x with _ | m <;> simp [concatAll, hcf]
  | cons l t ih =>
      intro b
      simp only [List.cons_append, concatAll]
      rcases hcf : concatFields b l with _ | m
      · simp [hcf]
      · simp only [hcf]
        exact ih m

/-- concatAll along object definitions: the header of the base object is
kept and the field lists are concatenated in order. -/
theorem concatAll_objects (n0 : String) (ifs : List String)
    (dirs : List DirectiveNode) :
    ∀ (laters : List ValidDefinitionNode) (f0 : List FieldDefinitionNode),
    (∀ l ∈ laters, l.isObject = true) →
    concatAll (.objectDef n0 ifs dirs f0) laters
      = some (.objectDef n0 ifs dirs
          (f0 ++ (laters.map fieldsOfObject).flatten)) := by
  intro laters
  induction laters with
  | nil =>
      intro f0 _
      simp [concatAll]
  | cons l t ih =>
      intro f0 hobj
      have hl := hobj l (List.mem_cons_self _ _)
      cases l with
      | objectDef n1 i1 d1 f1 =>
          simp only [concatAll, concatFields, laterFieldsAsFields]
          rw [ih (f0 ++ f1)
            (fun x hx => hobj x (List.mem_cons_of_mem _ hx))]
          simp [fieldsOfObject]
      | directiveDef n1 a1 => simp [ValidDefinitionNode.isObject] at hl
      | scalarDef n1 d1 => simp [ValidDefinitionNode.isObject] at hl
      | interfaceDef n1 d1 f1 => simp [ValidDefinitionNode.isObject] at hl
      | unionDef n1 d1 t1 => simp [ValidDefinitionNode.isObject] at hl
      | enumDef n1 d1 v1 => simp [ValidDefinitionNode.isObject] at hl
      | inputObjectDef n1 d1 f1 =>
          simp [ValidDefinitionNode.isObject] at hl

/-- Invariant of the for-of merge loop of importSchema: the state after
processing the prefix P is fully described by the occurrence structure of
P over the original store, and processing the remaining indices R extends
the description to P ++ R.  The indices in play are distinct in-range
allocations of definitions of any kind; the node registered for a name is
its first occurrence with the fields of every later occurrence folded
onto it by concatFields. -/
theorem mergeLoop_inv (store0 : List ValidDefinitionNode) :
    ∀ (R P : List Nat) (ptn : List String) (mft : List Nat)
      (store : List ValidDefinitionNode) (mftOut : List Nat)
      (storeOut : List ValidDefinitionNode),
    mergeLoop ptn mft store R = .ok (mftOut, storeOut) →
    store.length = store0.length →
    (∀ i ∈ P ++ R, i < store0.length) →
    (P ++ R).Nodup →
    (∀ j, j ∈ mft ↔
        (occsOf store0 P (nameAt store0 j)).head? = some j) →
    (∀ n, n ∈ ptn ↔ occsOf store0 P n ≠ []) →
    (∀ i, i < store0.length → i ∉ mft →
        getDef store i = getDef store0 i) →
    (∀ j ∈ mft, ∃ rest,
        occsOf store0 P (nameAt store0 j) = j :: rest
        ∧ concatAll (getDef store0 j) (rest.map (getDef store0))
            = some (getDef store j)) →
    storeOut.length = store0.length
    ∧ (∀ j, j ∈ mftOut ↔
        (occsOf store0 (P ++ R) (nameAt store0 j)).head? = some j)
    ∧ (∀ i, i < store0.length → i ∉ mftOut →
        getDef storeOut i = getDef store0 i)
    ∧ (∀ j ∈ mftOut, ∃ rest,
        occsOf store0 (P ++ R) (nameAt store0 j) = j :: rest
        ∧ concatAll (getDef store0 j) (rest.map (getDef store0))
            = some (getDef storeOut j)) := by
  intro R
  induction R with
  | nil =>
      intro P ptn mft store mftOut storeOut h hslen hlen hnd hmft hptn
        huntouched hmerged
      simp only [mergeLoop] at h
      cases h
      simpa using ⟨hslen, hmft, huntouched, hmerged⟩
  | cons idx rest ih =>
      intro P ptn mft store mftOut storeOut h hslen hlen hnd hmft hptn
        huntouched hmerged
      have hdisj := List.disjoint_of_nodup_append hnd
      have hidxP : idx ∉ P := fun hc =>
        hdisj hc (List.mem_cons_self _ _)
      have hidxlen : idx < store0.length :=
        hlen idx (List.mem_append.mpr (Or.inr (List.mem_cons_self _ _)))
      have hidxmft : idx ∉ mft := by
        intro hc
        have := (hmft idx).mp hc
        have hmem : idx ∈ occsOf store0 P (nameAt store0 idx) :=
          List.mem_of_mem_head? this
        exact hidxP (List.mem_of_mem_filter hmem)
      have hidxval : getDef store idx = getDef store0 idx :=
        huntouched idx hidxlen hidxmft
      have hnamestore : ∀ j ∈ mft,
          (getDef store j).name = nameAt store0 j := by
        intro j hj
        obtain ⟨r0, _, hf0⟩ := hmerged j hj
        rw [concatAll_name _ hf0]
        rfl
      simp only [mergeLoop] at h
      rw [hidxval] at h
      by_cases hcont : ptn.contains (getDef store0 idx).name = true
      · -- already seen name: merge into the registered first occurrence
        rw [if_pos hcont] at h
        have hne : occsOf store0 P ((getDef store0 idx).name) ≠ [] :=
          (hptn _).mp (by simpa using hcont)
        rcases hocc : occsOf store0 P ((getDef store0 idx).name) with
          _ | ⟨jstar, occt⟩
        · exact absurd hocc hne
        · have hjstarOcc : jstar ∈ occsOf store0 P
              ((getDef store0 idx).name) := by
            rw [hocc]; exact List.mem_cons_self _ _
          have hjstarP : jstar ∈ P := List.mem_of_mem_filter hjstarOcc
          have hjstarName : nameAt store0 jstar
              = (getDef store0 idx).name := by
            have := List.of_mem_filter hjstarOcc
            simpa using this
          have hjstarMft : jstar ∈ mft := by
            refine (hmft jstar).mpr ?_
            rw [hjstarName, hocc]
            rfl
          have hfindUnique : ∀ j ∈ mft,
              (getDef store j).name = (getDef store0 idx).name →
              j = jstar := by
            intro j hj hjn
            have h1 := (hmft j).mp hj
            rw [hnamestore j hj] at hjn
            rw [hjn] at h1
            rw [hocc] at h1
            exact (Option.some_injective _ h1).symm ▸ rfl
          rcases hfind : mft.find?
              (fun j => (getDef store j).name
                = (getDef store0 idx).name) with _ | jfound
          · exfalso
            have := List.find?_eq_none.mp hfind jstar hjstarMft
            rw [hnamestore jstar hjstarMft, hjstarName] at this
            simp at this
          · simp only [hfind] at h
            have hjf : jstar = jfound := by
              have h1 := List.mem_of_find?_eq_some hfind
              have h2 := List.find?_some hfind
              simp only [decide_eq_true_eq] at h2
              exact (hfindUnique jfound h1 h2).symm
            subst hjf
            have hjstarlen : jstar < store0.length :=
              hlen jstar (List.mem_append.mpr (Or.inl hjstarP))
            obtain ⟨rest0, hocc0eq, hfold0⟩ := hmerged jstar hjstarMft
            rcases hcf : concatFields (getDef store jstar)
                (getDef store0 idx) with _ | d2
            · simp only [hcf] at h
              exact absurd h (by simp)
            · simp only [hcf] at h
              have hres := ih (P ++ [idx]) ptn mft
                (setDef store jstar d2) mftOut storeOut h
                (by rw [setDef_length]; exact hslen)
                (by
                  intro i hi
                  refine hlen i ?_
                  rw [List.append_assoc] at hi
                  simpa using hi)
                (by rw [List.append_assoc]; simpa using hnd)
                (by
                  intro j
                  rw [(hmft j)]
                  rw [occsOf_append_single]
                  by_cases hjn : nameAt store0 idx = nameAt store0 j
                  · rw [if_pos hjn]
                    rw [head?_append_of_ne_nil]
                    have : nameAt store0 j = (getDef store0 idx).name := by
                      rw [← hjn]; rfl
                    rw [this, hocc]
                    simp
                  · rw [if_neg hjn]
                    simp)
                (by
                  intro n
                  rw [hptn n]
                  rw [occsOf_append_single]
                  by_cases hn2 : nameAt store0 idx = n
                  · constructor
                    · intro h2
                      simp [h2]
                    · intro _
                      have : n = (getDef store0 idx).name := by
                        rw [← hn2]; rfl
                      rw [this, hocc]
                      simp
                  · rw [if_neg hn2]
                    simp)
                (by
                  intro i hilen himft
                  have hne2 : i ≠ jstar := fun hc => himft (hc ▸ hjstarMft)
                  rw [getDef_setDef_ne hne2]
                  exact huntouched i hilen himft)
                (by
                  intro j hj
                  by_cases hjeq : j = jstar
                  · rw [hjeq]
                    refine ⟨rest0 ++ [idx], ?_, ?_⟩
                    · have hnj : nameAt store0 idx
                          = nameAt store0 jstar := hjstarName.symm
                      rw [occsOf_append_single, if_pos hnj, hocc0eq]
                      rfl
                    · rw [getDef_setDef_self
                        (by rw [hslen]; exact hjstarlen)]
                      simp only [List.map_append, List.map_cons,
                        List.map_nil]
                      rw [concatAll_append_single, hfold0]
                      exact hcf
                  · obtain ⟨r1, hr1, hf1⟩ := hmerged j hj
                    refine ⟨r1, ?_, ?_⟩
                    · rw [occsOf_append_single]
                      have hnj : ¬(nameAt store0 idx
                          = nameAt store0 j) := by
                        intro hc
                        apply hjeq
                        refine hfindUnique j hj ?_
                        rw [hnamestore j hj, ← hc]
                        rfl
                      rw [if_neg hnj, List.append_nil]
                      exact hr1
                    · rw [getDef_setDef_ne (fun hc => hjeq hc)]
                      exact hf1)
              rw [List.append_assoc] at hres
              simpa using hres
      · -- fresh name: register the index as first occurrence
        rw [if_neg hcont] at h
        have hocc0 : occsOf store0 P ((getDef store0 idx).name) = [] := by
          by_contra hc
          exact hcont (by simpa using (hptn _).mpr hc)
        have hres := ih (P ++ [idx])
          (ptn ++ [(getDef store0 idx).name]) (mft ++ [idx]) store
          mftOut storeOut h hslen
          (by
            intro i hi
            refine hlen i ?_
            rw [List.append_assoc] at hi
            simpa using hi)
          (by rw [List.append_assoc]; simpa using hnd)
          (by
            intro j
            rw [occsOf_append_single]
            constructor
            · intro hj
              rcases List.mem_append.mp hj with h1 | h1
              · have h2 := (hmft j).mp h1
                have hne : occsOf store0 P (nameAt store0 j) ≠ [] := by
                  intro hc
                  rw [hc] at h2
                  simp at h2
                rw [head?_append_of_ne_nil hne]
                exact h2
              · have hji : j = idx := by simpa using h1
                subst hji
                rw [if_pos rfl]
                have : occsOf store0 P (nameAt store0 j) = [] := hocc0
                rw [this]
                rfl
            · intro hj
              by_cases hjn : nameAt store0 idx = nameAt store0 j
              · rw [if_pos hjn] at hj
                have : occsOf store0 P (nameAt store0 j) = [] := by
                  rw [← hjn]
                  exact hocc0
                rw [this] at hj
                simp at hj
                subst hj
                simp
              · rw [if_neg hjn] at hj
                simp only [List.append_nil] at hj
                exact List.mem_append.mpr (Or.inl ((hmft j).mpr hj)))
          (by
            intro n
            rw [occsOf_append_single]
            by_cases hn2 : nameAt store0 idx = n
            · rw [if_pos hn2]
              constructor
              · intro _
                simp
              · intro _
                refine List.mem_append.mpr (Or.inr ?_)
                rw [← hn2]
                simp [nameAt]
            · rw [if_neg hn2]
              simp only [List.append_nil]
              constructor
              · intro hn3
                rcases List.mem_append.mp hn3 with h1 | h1
                · exact (hptn n).mp h1
                · exfalso
                  have : n = (getDef store0 idx).name := by simpa using h1
                  exact hn2 (by rw [this]; rfl)
              · intro hn3
                exact List.mem_append.mpr (Or.inl ((hptn n).mpr hn3)))
          (by
            intro i hilen himft
            refine huntouched i hilen (fun hc => himft ?_)
            exact List.mem_append.mpr (Or.inl hc))
          (by
            intro j hj
            rcases List.mem_append.mp hj with h1 | h1
            · obtain ⟨r1, hr1, hf1⟩ := hmerged j h1
              refine ⟨r1, ?_, hf1⟩
              rw [occsOf_append_single]
              have hjn : ¬(nameAt store0 idx = nameAt store0 j) := by
                intro hc
                have h2 := (hmft j).mp h1
                have hne : occsOf store0 P (nameAt store0 j) ≠ [] := by
                  intro hc2
                  rw [hc2] at h2
                  simp at h2
                apply hne
                rw [← hc]
                exact hocc0
              rw [if_neg hjn, List.append_nil]
              exact hr1
            · have hji : j = idx := by simpa using h1
              subst hji
              refine ⟨[], ?_, ?_⟩
              · rw [occsOf_append_single, if_pos rfl]
                have hocc1 : occsOf store0 P (nameAt store0 j) = [] :=
                  hocc0
                rw [hocc1]
                rfl
              · simp only [List.map_nil, concatAll]
                rw [hidxval])
        rw [List.append_assoc] at hres
        simpa using hres

/-- completePoolLoop only appends to the pool it was given. -/
theorem completePoolLoop_extends (allDefs : List ValidDefinitionNode) :
    ∀ (fuel : Nat) (pool rest : List ValidDefinitionNode)
      (visited : List String) (out : List ValidDefinitionNode),
    completePoolLoop fuel allDefs pool rest visited = .ok out →
    ∃ ext, out = pool ++ ext := by
  intro fuel
  induction fuel with
  | zero =>
      intro pool rest visited out h
      cases rest with
      | nil =>
          simp only [completePoolLoop] at h
          cases h
          exact ⟨[], by simp⟩
      | cons a t =>
          simp only [completePoolLoop] at h
          exact absurd h (by simp)
  | succ f ih =>
      intro pool rest visited out h
      cases rest with
      | nil =>
          simp only [completePoolLoop] at h
          cases h
          exact ⟨[], by simp⟩
      | cons a t =>
          simp only [completePoolLoop] at h
          by_cases hv : visited.contains a.name = true
          · rw [if_pos hv] at h
            exact ih pool t visited out h
          · rw [if_neg hv] at h
            rcases hcol : collectNewTypeDefinitions f allDefs pool a with
              _ | cols
            · rw [hcol] at h
              exact absurd h (by simp)
            · rw [hcol] at h
              obtain ⟨ext, hext⟩ := ih (pool ++ cols) (t ++ cols) _ out h
              exact ⟨cols ++ ext, by simp [hext]⟩

/-- find? over an append whose left part already finds a witness. -/
theorem find?_append_some {α : Type} (p : α → Bool) (l2 : List α) :
    ∀ (l1 : List α) (a : α), l1.find? p = some a →
    (l1 ++ l2).find? p = some a := by
  intro l1
  induction l1 with
  | nil =>
      intro a h
      simp [List.find?] at h
  | cons x xs ih =>
      intro a h
      cases hx : p x
      · simp only [List.cons_append, List.find?, hx] at h ⊢
        exact ih a h
      · simp only [List.cons_append, List.find?, hx] at h ⊢
        exact h

/-- find? agrees for predicates equal on every member. -/
theorem find?_congr_mem {α : Type} (p q : α → Bool) :
    ∀ l : List α, (∀ a ∈ l, p a = q a) → l.find? p = l.find? q := by
  intro l
  induction l with
  | nil => intro _; rfl
  | cons x xs ih =>
      intro h
      have hx := h x (List.mem_cons_self _ _)
      cases hq : q x with
      | false =>
          simp only [List.find?, hx, hq]
          exact ih (fun a ha => h a (List.mem_cons_of_mem x ha))
      | true =>
          simp only [List.find?, hx, hq]

/-- find? through a map. -/
theorem find?_map_comp {α β : Type} (f : α → β) (p : β → Bool) :
    ∀ l : List α,
    (l.map f).find? p = (l.find? (fun a => p (f a))).map f := by
  intro l
  induction l with
  | nil => rfl
  | cons x xs ih =>
      cases hx : p (f x)
      · simp only [List.map_cons, List.find?, hx]
        exact ih
      · simp only [List.map_cons, List.find?, hx]
        rfl

/-- The head of a filtered list is find?. -/
theorem filter_head?_eq_find? {α : Type} (p : α → Bool) :
    ∀ l : List α, (l.filter p).head? = l.find? p := by
  intro l
  induction l with
  | nil => rfl
  | cons x xs ih =>
      cases hx : p x
      · simp only [List.filter_cons, hx, List.find?]
        simpa using ih
      · simp only [List.filter_cons, hx, List.find?]
        simp

/-- Occurrences distribute over an appended index list. -/
theorem occsOf_append (store0 : List ValidDefinitionNode)
    (l1 l2 : List Nat) (n : String) :
    occsOf store0 (l1 ++ l2) n
      = occsOf store0 l1 n ++ occsOf store0 l2 n := by
  simp only [occsOf, List.filter_append]

/-- For a root-operation name, restricting an index list to root-named
definitions keeps all of its occurrences. -/
theorem occsOf_filter_root (store0 : List ValidDefinitionNode) (n : String)
    (hn : rootFields.contains n = true) :
    ∀ flat : List Nat,
    occsOf store0 (flat.filter (fun i =>
        rootFields.contains (getDef store0 i).name)) n
      = occsOf store0 flat n := by
  intro flat
  induction flat with
  | nil => rfl
  | cons x xs ih =>
      simp only [occsOf, nameAt] at ih ⊢
      by_cases hx : (getDef store0 x).name = n
      · have hr : rootFields.contains (getDef store0 x).name = true := by
          rw [hx]; exact hn
        rw [List.filter_cons, if_pos hr, List.filter_cons,
          if_pos (by simpa using hx), List.filter_cons,
          if_pos (by simpa using hx), ih]
      · by_cases hr : rootFields.contains (getDef store0 x).name = true
        · rw [List.filter_cons, if_pos hr, List.filter_cons,
            if_neg (by simpa using hx), List.filter_cons,
            if_neg (by simpa using hx), ih]
        · rw [List.filter_cons, if_neg hr, List.filter_cons,
            if_neg (by simpa using hx), ih]

/-- For a root-operation name, an index list restricted to non-root names
has no occurrence of it. -/
theorem occsOf_filter_nonroot (store0 : List ValidDefinitionNode)
    (n : String) (hn : rootFields.contains n = true) :
    ∀ other : List Nat,
    occsOf store0 (other.filter (fun i =>
        !rootFields.contains (getDef store0 i).name)) n = [] := by
  intro other
  induction other with
  | nil => rfl
  | cons x xs ih =>
      simp only [occsOf, nameAt] at ih ⊢
      by_cases hr : rootFields.contains (getDef store0 x).name = true
      · have hr2 : ¬((!rootFields.contains (getDef store0 x).name)
            = true) := by rw [hr]; decide
        rw [List.filter_cons, if_neg hr2, ih]
      · have hr2 : (!rootFields.contains (getDef store0 x).name)
            = true := by
          cases hc : rootFields.contains (getDef store0 x).name
          · rfl
          · exact absurd hc hr
        have hx : ¬((getDef store0 x).name = n) := fun hc =>
          hr (by rw [hc]; exact hn)
        rw [List.filter_cons, if_pos hr2, List.filter_cons,
          if_neg (by simpa using hx), ih]

/-- A list with pairwise-distinct names holds at most one member per
name. -/
theorem name_inj_of_nodup :
    ∀ l : List ValidDefinitionNode,
    (l.map ValidDefinitionNode.name).Nodup →
    ∀ d ∈ l, ∀ e ∈ l, d.name = e.name → d = e := by
  intro l
  induction l with
  | nil =>
      intro _ d hd
      simp at hd
  | cons x xs ih =>
      intro hnd d hd e he hde
      simp only [List.map_cons, List.nodup_cons, List.mem_map] at hnd
      rcases List.mem_cons.mp hd with h1 | h1 <;>
        rcases List.mem_cons.mp he with h2 | h2
      · rw [h1, h2]
      · subst h1
        exact absurd ⟨e, h2, hde.symm⟩ hnd.1
      · subst h2
        exact absurd ⟨d, h1, hde⟩ hnd.1
      · exact ih hnd.2 d h1 e h2 hde

/-- Claim C3, amended: when the merge seed indices are pairwise distinct
in-range allocations, every output definition of importSchema carrying a
root-operation name that also names at least one admitted definition is
the first admitted occurrence of that name with the fields of every later
admitted occurrence concatenated onto it in flattened visit order; in
particular, when all admitted occurrences of the name are object
definitions, its field list is exactly the concatenation of their field
lists. -/
theorem c3_root_merge_amended (fuel : Nat)
    (parseDoc : String → Option (List DocDefinitionNode))
    (schema : String) (schemas : List (String × String))
    (st : CollectState) (firstSet : List Nat)
    (store2 out : List ValidDefinitionNode) (n : String)
    (d : ValidDefinitionNode)
    (hout : importSchemaDefs fuel parseDoc schema schemas = .ok out)
    (hcol : collectDefinitions fuel parseDoc schemas ["*"]
        (match readSource schemas schema with
         | some t => if t = "" then schema else t
         | none => schema) schema ⟨[], [], [], [], []⟩ = .ok st)
    (hmerge : mergeRootTypes st.store st.typeDefinitions
        = .ok (firstSet, store2))
    (hnd : firstSet.Nodup)
    (hlen : ∀ i ∈ firstSet, i < st.store.length)
    (hroot : rootFields.contains n = true)
    (hocc : occsOf st.store st.typeDefinitions.flatten n ≠ [])
    (hd : d ∈ out) (hdn : d.name = n) :
    ∃ jstar jrest,
      occsOf st.store st.typeDefinitions.flatten n = jstar :: jrest
      ∧ concatAll (getDef st.store jstar) (jrest.map (getDef st.store))
          = some d
      ∧ ((∀ j ∈ occsOf st.store st.typeDefinitions.flatten n,
            (getDef st.store j).isObject = true) →
          d = setObjFields (getDef st.store jstar)
              (mergedFields st.store st.typeDefinitions.flatten n)
          ∧ fieldsOfObject d
              = mergedFields st.store st.typeDefinitions.flatten n) := by
  simp only [importSchemaDefs] at hout
  rcases hdoc : getDocumentFromSDL parseDoc
      (match readSource schemas schema with
       | some t => if t = "" then schema else t
       | none => schema) with _ | doc
  · simp only [hdoc] at hout
    exact absurd hout (by simp)
  · simp only [hdoc] at hout
    simp only [hcol] at hout
    simp only [hmerge] at hout
    simp only [completeDefinitionPool] at hout
    rcases hloop : completePoolLoop fuel
        (st.allDefinitions.flatten.map (getDef store2))
        (firstSet.map (getDef store2))
        (st.typeDefinitions.flatten.map (getDef store2)) [] with _ | grown
    · simp only [hloop] at hout
      exact absurd hout (by simp)
    · simp only [hloop] at hout
      have hout2 : uniqByName grown = out := by injection hout
      subst hout2
      simp only [mergeRootTypes] at hmerge
      rcases hml : mergeLoop [] [] st.store
          (st.typeDefinitions.flatten.filter (fun i =>
              rootFields.contains (getDef st.store i).name)
            ++ (st.typeDefinitions.headD []).filter (fun i =>
              !rootFields.contains (getDef st.store i).name)) with _ | p
      · simp only [hml] at hmerge
        exact absurd hmerge (by simp)
      · simp only [hml] at hmerge
        rcases p with ⟨mftOut, storeOut⟩
        have hpair : ((st.typeDefinitions.flatten.filter (fun i =>
              rootFields.contains (getDef st.store i).name)
            ++ (st.typeDefinitions.headD []).filter (fun i =>
              !rootFields.contains (getDef st.store i).name)), storeOut)
            = (firstSet, store2) := by injection hmerge
        have hfs := (Prod.mk.injEq _ _ _ _ ▸ hpair).1
        have hst := (Prod.mk.injEq _ _ _ _ ▸ hpair).2
        obtain ⟨hslen2, hmftOut, huntouch, hmerged⟩ :=
          mergeLoop_inv st.store firstSet [] [] [] st.store mftOut storeOut
            (by rw [hfs] at hml; exact hml)
            rfl
            (by intro i hi; exact hlen i (by simpa using hi))
            (by simpa using hnd)
            (by intro j; simp [occsOf])
            (by intro m; simp [occsOf])
            (by intro i _ _; rfl)
            (by intro j hj; simp at hj)
        simp only [List.nil_append] at hmftOut hmerged
        rw [hst] at huntouch hmerged
        have hocc_eq : occsOf st.store firstSet n
            = occsOf st.store st.typeDefinitions.flatten n := by
          rw [← hfs, occsOf_append, occsOf_filter_root st.store n hroot,
            occsOf_filter_nonroot st.store n hroot, List.append_nil]
        rcases hoccl : occsOf st.store st.typeDefinitions.flatten n with
          _ | ⟨jstar, jt⟩
        · exact absurd hoccl hocc
        · have hjmemocc : jstar ∈ occsOf st.store firstSet n := by
            rw [hocc_eq, hoccl]
            exact List.mem_cons_self _ _
          have hjmemocc2 := hjmemocc
          simp only [occsOf] at hjmemocc2
          have hjstarFS : jstar ∈ firstSet :=
            List.mem_of_mem_filter hjmemocc2
          have hjn : nameAt st.store jstar = n := by
            have := List.of_mem_filter hjmemocc2
            simpa using this
          have hjmft : jstar ∈ mftOut := by
            refine (hmftOut jstar).mpr ?_
            rw [hjn, hocc_eq, hoccl]
            rfl
          obtain ⟨restJ, hrestEq, hrestFold⟩ := hmerged jstar hjmft
          have hrestJ : restJ = jt := by
            have h9 := hrestEq
            rw [hjn, hocc_eq, hoccl] at h9
            simp at h9
            exact h9.symm
          have hnode : concatAll (getDef st.store jstar)
              (jt.map (getDef st.store)) = some (getDef store2 jstar) := by
            rw [← hrestJ]
            exact hrestFold
          have hname2 : ∀ i ∈ firstSet,
              (getDef store2 i).name = nameAt st.store i := by
            intro i hifs
            by_cases hmem : i ∈ mftOut
            · obtain ⟨r2, hr2, hf2⟩ := hmerged i hmem
              rw [concatAll_name _ hf2]
              rfl
            · rw [huntouch i (hlen i hifs) hmem]
              rfl
          have hfind_fs : firstSet.find? (fun i =>
              (getDef store2 i).name = n) = some jstar := by
            rw [find?_congr_mem _ (fun i =>
                decide (nameAt st.store i = n)) firstSet
              (by intro a ha; rw [hname2 a ha])]
            rw [← filter_head?_eq_find?]
            have hoa : occsOf st.store firstSet n
                = List.filter (fun i =>
                    decide (nameAt st.store i = n)) firstSet := rfl
            rw [← hoa, hocc_eq, hoccl]
            rfl
          have hpoolfind : (firstSet.map (getDef store2)).find?
              (fun d2 => d2.name = n) = some (getDef store2 jstar) := by
            rw [find?_map_comp]
            rw [hfind_fs]
            rfl
          obtain ⟨ext, hext⟩ := completePoolLoop_extends
            (st.allDefinitions.flatten.map (getDef store2)) fuel
            (firstSet.map (getDef store2))
            (st.typeDefinitions.flatten.map (getDef store2)) [] grown hloop
          have hgrownfind : grown.find? (fun d2 => d2.name = n)
              = some (getDef store2 jstar) := by
            rw [hext]
            exact find?_append_some _ ext _ _ hpoolfind
          have houtfind : (uniqByName grown).find? (fun d2 => d2.name = n)
              = some (getDef store2 jstar) := by
            rw [uniqByName, uniqByNameAux_find? [] grown n (by simp)]
            exact hgrownfind
          have hnodeMem : getDef store2 jstar ∈ uniqByName grown :=
            List.mem_of_find?_eq_some houtfind
          have hnodeName : (getDef store2 jstar).name = n := by
            have := List.find?_some houtfind
            simpa using this
          have hdeq : d = getDef store2 jstar :=
            name_inj_of_nodup (uniqByName grown)
              (uniqByNameAux_names_nodup [] grown).1
              d hd (getDef store2 jstar) hnodeMem
              (hdn.trans hnodeName.symm)
          refine ⟨jstar, jt, rfl, ?_, ?_⟩
          · rw [hdeq]
            exact hnode
          · intro hallobj
            have hobjstar := hallobj jstar (List.mem_cons_self _ _)
            have hlist : ∀ l ∈ jt.map (getDef st.store),
                l.isObject = true := by
              intro l hl
              obtain ⟨j2, hj2, hj2eq⟩ := List.mem_map.mp hl
              rw [← hj2eq]
              exact hallobj j2 (List.mem_cons_of_mem _ hj2)
            have hmfeq : mergedFields st.store
                st.typeDefinitions.flatten n
                = fieldsOfObject (getDef st.store jstar)
                  ++ ((jt.map (getDef st.store)).map
                      fieldsOfObject).flatten := by
              simp only [mergedFields]
              rw [hoccl]
              rw [List.map_map]
              simp only [List.map_cons, List.flatten_cons]
              rfl
            rcases hs : getDef st.store jstar with
              ⟨n1, a1⟩ | ⟨n1, d1⟩ | ⟨n1, i1, d1, f1⟩ | ⟨n1, d1, f1⟩
                | ⟨n1, d1, t1⟩ | ⟨n1, d1, v1⟩ | ⟨n1, d1, f1⟩ <;>
              rw [hs] at hobjstar <;>
              simp [ValidDefinitionNode.isObject] at hobjstar
            rw [hs] at hnode
            rw [concatAll_objects n1 i1 d1 (jt.map (getDef st.store))
              f1 hlist] at hnode
            have hd2 : getDef store2 jstar
                = .objectDef n1 i1 d1
                    (f1 ++ ((jt.map (getDef st.store)).map
                      fieldsOfObject).flatten) :=
              (Option.some_injective _ hnode).symm
            have hmfeq2 : mergedFields st.store
                st.typeDefinitions.flatten n
                = f1 ++ ((jt.map (getDef st.store)).map
                    fieldsOfObject).flatten := by
              rw [hmfeq, hs]
              simp [fieldsOfObject]
            constructor
            · rw [hdeq, hd2, hmfeq2]
              simp [setObjFields]
            · rw [hdeq, hd2, hmfeq2]
              simp [fieldsOfObject]

/-- Counterexample scenario for claim C3, root file: imports only A from
file b and defines an object R referencing A. -/
def c3cRoot : String := "# import A from \"b\"\ntype R { f: A }"

/-- Counterexample scenario for claim C3, file b: defines A, whose field
references the type Query, and Query itself. -/
def c3cB : String := "type A { q: Query }\ntype Query { x: Int }"

/-- The object R of the counterexample root file. -/
def c3cR : ValidDefinitionNode :=
  .objectDef "R" [] [] [⟨"f", [], .namedType "A", []⟩]

/-- The object A of counterexample file b. -/
def c3cA : ValidDefinitionNode :=
  .objectDef "A" [] [] [⟨"q", [], .namedType "Query", []⟩]

/-- The object Query of counterexample file b: defined but
never imported. -/
def c3cQ : ValidDefinitionNode :=
  .objectDef "Query" [] [] [⟨"x", [], .namedType "Int", []⟩]

/-- External AST parser for the counterexample sources. -/
def c3cParse : String → Option (List DocDefinitionNode) := fun s =>
  if s = c3cRoot then some [.valid c3cR]
  else if s = c3cB then some [.valid c3cA, .valid c3cQ]
  else none

/-- The in-memory schema map of the counterexample. -/
def c3cSchemas : List (String × String) := [("root", c3cRoot), ("b", c3cB)]

/-- The collector state reached by the counterexample run. -/
def c3cSt : CollectState :=
  ⟨[c3cR, c3cA, c3cQ], [("root", [⟨["A"], "b"⟩])], [[0], [1]],
   [[0], [1, 2]], [("root", ⟨["A"], "b"⟩)]⟩

/-- Claim C3, counterexample: the output of importSchema can contain a
definition named Query that was pulled into the pool through a field
reference although no admitted definition carries that name; its field
list is then not the concatenation of the field lists of the same-named
admitted definitions across the flattened typeDefinitions, which is
empty. -/
theorem c3_counterexample :
    importSchemaDefs 10 c3cParse "root" c3cSchemas
      = .ok [c3cR, c3cA, c3cQ]
    ∧ collectDefinitions 10 c3cParse c3cSchemas ["*"] c3cRoot "root"
        ⟨[], [], [], [], []⟩ = .ok c3cSt
    ∧ rootFields.contains "Query" = true
    ∧ c3cQ ∈ [c3cR, c3cA, c3cQ]
    ∧ c3cQ.name = "Query"
    ∧ fieldsOfObject c3cQ
        ≠ mergedFields c3cSt.store c3cSt.typeDefinitions.flatten
            "Query" := by
  refine ⟨by decide, by decide, by decide, by decide, by decide, by decide⟩

/-- Witness scenario for the amended claim C3, root file: imports Query
from file b and defines its own Query. -/
def c3wRoot : String := "# import Query from \"b\"\ntype Query { a: Int }"

/-- Witness scenario for the amended claim C3, file b. -/
def c3wB : String := "type Query { b: Int }"

/-- The Query of the witness root file. -/
def c3wQA : ValidDefinitionNode :=
  .objectDef "Query" [] [] [⟨"a", [], .namedType "Int", []⟩]

/-- The Query of witness file b. -/
def c3wQB : ValidDefinitionNode :=
  .objectDef "Query" [] [] [⟨"b", [], .namedType "Int", []⟩]

/-- External AST parser for the witness sources. -/
def c3wParse : String → Option (List DocDefinitionNode) := fun s =>
  if s = c3wRoot then some [.valid c3wQA]
  else if s = c3wB then some [.valid c3wQB]
  else none

/-- The in-memory schema map of the witness. -/
def c3wSchemas : List (String × String) := [("root", c3wRoot), ("b", c3wB)]

/-- The collector state reached by the witness run. -/
def c3wSt : CollectState :=
  ⟨[c3wQA, c3wQB], [("root", [⟨["Query"], "b"⟩])], [[0], [1]], [[0], [1]],
   [("root", ⟨["Query"], "b"⟩)]⟩

/-- The merged Query definition of the witness run. -/
def c3wQAB : ValidDefinitionNode :=
  .objectDef "Query" [] []
    [⟨"a", [], .namedType "Int", []⟩, ⟨"b", [], .namedType "Int", []⟩]

/-- Witness for the amended claim C3: the two same-named Query definitions
of the witness run merge into the first occurrence, whose field list is
the concatenation of both field lists. -/
theorem c3_root_merge_amended_witness :
    ∃ jstar jrest,
      occsOf c3wSt.store c3wSt.typeDefinitions.flatten "Query"
        = jstar :: jrest
      ∧ concatAll (getDef c3wSt.store jstar)
          (jrest.map (getDef c3wSt.store)) = some c3wQAB
      ∧ ((∀ j ∈ occsOf c3wSt.store c3wSt.typeDefinitions.flatten "Query",
            (getDef c3wSt.store j).isObject = true) →
          c3wQAB = setObjFields (getDef c3wSt.store jstar)
              (mergedFields c3wSt.store c3wSt.typeDefinitions.flatten
                "Query")
          ∧ fieldsOfObject c3wQAB
              = mergedFields c3wSt.store c3wSt.typeDefinitions.flatten
                  "Query") :=
  c3_root_merge_amended 10 c3wParse "root" c3wSchemas c3wSt [0, 1]
    [c3wQAB, c3wQB] [c3wQAB] "Query" c3wQAB
    (by decide) (by decide) (by decide) (by decide) (by decide)
    (by decide) (by decide) (by decide) (by decide)

/-- Divergence scenario for claim C7: a directive definition a whose
argument applies directive b. -/
def c7DirA : ValidDefinitionNode :=
  .directiveDef "a" [⟨"x", .namedType "Int", [⟨"b"⟩]⟩]

/-- Divergence scenario for claim C7: a directive definition b whose
argument applies directive a. -/
def c7DirB : ValidDefinitionNode :=
  .directiveDef "b" [⟨"y", .namedType "Int", [⟨"a"⟩]⟩]

/-- Divergence scenario for claim C7: a scalar applying directive a. -/
def c7Q : ValidDefinitionNode := .scalarDef "Q" [⟨"a"⟩]

/-- The definitions of divergence file b. -/
def c7A : List ValidDefinitionNode := [c7Q, c7DirA, c7DirB]

/-- Divergence scenario root file: only the import comment. -/
def c7Root : String := "# import Q from \"b\""

/-- Divergence scenario file b source text. -/
def c7B : String := "q"

/-- External AST parser for the divergence sources. -/
def c7Parse : String → Option (List DocDefinitionNode) := fun s =>
  if s = c7B then some [.valid c7Q, .valid c7DirA, .valid c7DirB] else none

/-- The in-memory schema map of the divergence scenario. -/
def c7Schemas : List (String × String) := [("root", c7Root), ("b", c7B)]

/-- The collector state reached by the divergence run. -/
def c7St : CollectState :=
  ⟨[c7Q, c7DirA, c7DirB], [("root", [⟨["Q"], "b"⟩])], [[], [0]],
   [[], [0, 1, 2]], [("root", ⟨["Q"], "b"⟩)]⟩

/-- Core of the divergence: against the pool that never changes during one
collectNewTypeDefinitions call, resolving directive a collects the
arguments of its definition, whose applied directive b collects the
arguments of the definition of b, which applies a again; the mutual
recursion exhausts every amount of fuel. -/
theorem c7_diverge_aux (f : Nat) :
    collectDirectives f [] c7A [⟨"a"⟩] = .error .fuelOut
    ∧ collectDirectives f [] c7A [⟨"b"⟩] = .error .fuelOut := by
  induction f using Nat.strong_induction_on with
  | _ f ih =>
    obtain hsmall | hbig := lt_or_ge f 4
    · interval_cases f <;> exact ⟨by decide, by decide⟩
    · obtain ⟨f4, rfl⟩ : ∃ f4, f = f4 + 4 := ⟨f - 4, by omega⟩
      obtain ⟨ha, hb⟩ := ih f4 (by omega)
      have hna : collectNode (f4 + 1) [] c7A "x" (.namedType "Int")
          [⟨"b"⟩] = .error .fuelOut := by
        have e : collectNode (f4 + 1) [] c7A "x" (.namedType "Int") [⟨"b"⟩]
            = match collectDirectives f4 [] c7A [⟨"b"⟩] with
              | .error e => .error e
              | .ok dp => .ok ([] ++ dp) := rfl
        rw [e, hb]
      have hia : collectInputValues (f4 + 2) [] c7A
          [⟨"x", .namedType "Int", [⟨"b"⟩]⟩] = .error .fuelOut := by
        have e : collectInputValues (f4 + 2) [] c7A
            [⟨"x", .namedType "Int", [⟨"b"⟩]⟩]
            = match collectNode (f4 + 1) [] c7A "x" (.namedType "Int")
                  [⟨"b"⟩] with
              | .error e => .error e
              | .ok l =>
                  match collectInputValues (f4 + 1) [] c7A [] with
                  | .error e => .error e
                  | .ok r => .ok (l ++ r) := rfl
        rw [e, hna]
      have hda : collectDirective (f4 + 3) [] c7A ⟨"a"⟩
          = .error .fuelOut := by
        have e : collectDirective (f4 + 3) [] c7A ⟨"a"⟩
            = match collectInputValues (f4 + 2) [] c7A
                  [⟨"x", .namedType "Int", [⟨"b"⟩]⟩] with
              | .error e => .error e
              | .ok c => .ok (c
                  ++ [.directiveDef "a"
                      [⟨"x", .namedType "Int", [⟨"b"⟩]⟩]]) := rfl
        rw [e, hia]
      have ha4 : collectDirectives (f4 + 4) [] c7A [⟨"a"⟩]
          = .error .fuelOut := by
        have e : collectDirectives (f4 + 4) [] c7A [⟨"a"⟩]
            = match collectDirective (f4 + 3) [] c7A ⟨"a"⟩ with
              | .error e => .error e
              | .ok l =>
                  match collectDirectives (f4 + 3) [] c7A [] with
                  | .error e => .error e
                  | .ok r => .ok (l ++ r) := rfl
        rw [e, hda]
      have hnb : collectNode (f4 + 1) [] c7A "y" (.namedType "Int")
          [⟨"a"⟩] = .error .fuelOut := by
        have e : collectNode (f4 + 1) [] c7A "y" (.namedType "Int") [⟨"a"⟩]
            = match collectDirectives f4 [] c7A [⟨"a"⟩] with
              | .error e => .error e
              | .ok dp => .ok ([] ++ dp) := rfl
        rw [e, ha]
      have hib : collectInputValues (f4 + 2) [] c7A
          [⟨"y", .namedType "Int", [⟨"a"⟩]⟩] = .error .fuelOut := by
        have e : collectInputValues (f4 + 2) [] c7A
            [⟨"y", .namedType "Int", [⟨"a"⟩]⟩]
            = match collectNode (f4 + 1) [] c7A "y" (.namedType "Int")
                  [⟨"a"⟩] with
              | .error e => .error e
              | .ok l =>
                  match collectInputValues (f4 + 1) [] c7A [] with
                  | .error e => .error e
                  | .ok r => .ok (l ++ r) := rfl
        rw [e, hnb]
      have hdb : collectDirective (f4 + 3) [] c7A ⟨"b"⟩
          = .error .fuelOut := by
        have e : collectDirective (f4 + 3) [] c7A ⟨"b"⟩
            = match collectInputValues (f4 + 2) [] c7A
                  [⟨"y", .namedType "Int", [⟨"a"⟩]⟩] with
              | .error e => .error e
              | .ok c => .ok (c
                  ++ [.directiveDef "b"
                      [⟨"y", .namedType "Int", [⟨"a"⟩]⟩]]) := rfl
        rw [e, hib]
      have hb4 : collectDirectives (f4 + 4) [] c7A [⟨"b"⟩]
          = .error .fuelOut := by
        have e : collectDirectives (f4 + 4) [] c7A [⟨"b"⟩]
            = match collectDirective (f4 + 3) [] c7A ⟨"b"⟩ with
              | .error e => .error e
              | .ok l =>
                  match collectDirectives (f4 + 3) [] c7A [] with
                  | .error e => .error e
                  | .ok r => .ok (l ++ r) := rfl
        rw [e, hdb]
      exact ⟨ha4, hb4⟩

/-- Expanding the imported scalar of the divergence scenario runs out of
any amount of fuel. -/
theorem c7_scalar_diverges (f : Nat) :
    collectNewTypeDefinitions f c7A [] c7Q = .error .fuelOut := by
  have e : collectNewTypeDefinitions f c7A [] c7Q
      = collectDirectives f [] c7A [⟨"a"⟩] := rfl
  rw [e]
  exact (c7_diverge_aux f).1

/-- The work-list loop of completeDefinitionPool runs out of any amount of
fuel on the divergence scenario. -/
theorem c7_pool_diverges (f : Nat) :
    completePoolLoop f c7A [] [c7Q] [] = .error .fuelOut := by
  cases f with
  | zero => rfl
  | succ g =>
      have e : completePoolLoop (g + 1) c7A [] [c7Q] []
          = match collectNewTypeDefinitions g c7A [] c7Q with
            | .error e => .error e
            | .ok cols =>
                completePoolLoop g c7A ([] ++ cols) ([] ++ cols) ["Q"] :=
        rfl
      rw [e, c7_scalar_diverges g]

/-- importSchema on the given configuration exhausts every amount of
fuel: the model of a run that never returns. -/
def divergesOn (parseDoc : String → Option (List DocDefinitionNode))
    (schema : String) (schemas : List (String × String)) : Prop :=
  ∀ f : Nat, importSchemaDefs f parseDoc schema schemas = .error .fuelOut

/-- Claim C7, counterexample: on a finite acyclic two-file graph whose
shared file defines two mutually recursive directive definitions and
an imported scalar applying one of them, importSchema exhausts every
amount of fuel, so the function does not return: the recursion of
collectDirective and collectNode inside one collectNewTypeDefinitions
call never consults the visited set and the pool does not change during
the call. -/
theorem c7_counterexample : divergesOn c7Parse "root" c7Schemas := by
  intro f
  obtain hsmall | hbig := lt_or_ge f 3
  · interval_cases f <;> decide
  · obtain ⟨g, rfl⟩ : ∃ g, f = g + 3 := ⟨f - 3, by omega⟩
    have e1 : collectDefinitions (g + 3) c7Parse c7Schemas ["*"] c7Root
        "root" ⟨[], [], [], [], []⟩
        = processModules (g + 2) c7Parse c7Schemas [⟨["Q"], "b"⟩] "root"
            ⟨[], [], [[]], [[]], []⟩ := rfl
    have e2 : processModules (g + 2) c7Parse c7Schemas [⟨["Q"], "b"⟩]
        "root" ⟨[], [], [[]], [[]], []⟩
        = match collectDefinitions (g + 1) c7Parse c7Schemas ["Q"] c7B "b"
              ⟨[], [("root", [⟨["Q"], "b"⟩])], [[]], [[]],
               [("root", ⟨["Q"], "b"⟩)]⟩ with
          | .error e => .error e
          | .ok st2 =>
              processModules (g + 1) c7Parse c7Schemas [] "root" st2 :=
      rfl
    have e3 : collectDefinitions (g + 1) c7Parse c7Schemas ["Q"] c7B "b"
        ⟨[], [("root", [⟨["Q"], "b"⟩])], [[]], [[]],
         [("root", ⟨["Q"], "b"⟩)]⟩
        = processModules g c7Parse c7Schemas [] "b" c7St := rfl
    have e4 : processModules g c7Parse c7Schemas [] "b" c7St
        = .ok c7St := by
      cases g with
      | zero => rfl
      | succ g2 => rfl
    have e5 : processModules (g + 1) c7Parse c7Schemas [] "root" c7St
        = .ok c7St := rfl
    have hcol : collectDefinitions (g + 3) c7Parse c7Schemas ["*"] c7Root
        "root" ⟨[], [], [], [], []⟩ = .ok c7St := by
      rw [e1, e2, e3, e4]
      exact e5
    have e0 : importSchemaDefs (g + 3) c7Parse "root" c7Schemas
        = match collectDefinitions (g + 3) c7Parse c7Schemas ["*"] c7Root
              "root" ⟨[], [], [], [], []⟩ with
          | .error e => .error e
          | .ok st =>
              match mergeRootTypes st.store st.typeDefinitions with
              | .error e => .error (.err e)
              | .ok (firstSet, store2) =>
                  completeDefinitionPool (g + 3)
                    (st.allDefinitions.flatten.map (getDef store2))
                    (firstSet.map (getDef store2))
                    (st.typeDefinitions.flatten.map (getDef store2)) := rfl
    rw [e0, hcol]
    show completeDefinitionPool (g + 3) c7A [] [c7Q] = .error .fuelOut
    have e6 : completeDefinitionPool (g + 3) c7A [] [c7Q]
        = match completePoolLoop (g + 3) c7A [] [c7Q] [] with
          | .error e => .error e
          | .ok pool => .ok (uniqByName pool) := rfl
    rw [e6, c7_pool_diverges (g + 3)]

/-- A (canonical key, import directive) pair is registered when the
directive occurs in the processedFiles entry of the key. -/
def pairRegistered (pf : List (String × List RawModule))
    (p : String × RawModule) : Prop :=
  p.2 ∈ (lookupProcessed pf p.1).getD []

/-- Well-formedness of the ghost trace: no pair repeats, and every traced
pair is registered in processedFiles. -/
def WfState (st : CollectState) : Prop :=
  st.trace.Nodup ∧ ∀ p ∈ st.trace, pairRegistered st.processedFiles p

/-- Reading back the key just written into the processedFiles map. -/
theorem lookupProcessed_setProcessed_self
    (pf : List (String × List RawModule)) (k : String)
    (ms : List RawModule) :
    lookupProcessed (setProcessed pf k ms) k = some ms := by
  induction pf with
  | nil => simp [setProcessed, lookupProcessed, List.find?]
  | cons hd tl ih =>
      rcases hd with ⟨k2, v⟩
      by_cases h : k2 = k
      · simp only [setProcessed, if_pos h]
        simp [lookupProcessed, List.find?]
      · simp only [setProcessed, if_neg h]
        simp only [lookupProcessed] at ih ⊢
        rw [List.find?_cons_of_neg]
        · exact ih
        · simp [h]

/-- Writing one key of the processedFiles map leaves the others alone. -/
theorem lookupProcessed_setProcessed_ne
    (pf : List (String × List RawModule)) (k k2 : String)
    (ms : List RawModule) (h : k2 ≠ k) :
    lookupProcessed (setProcessed pf k ms) k2 = lookupProcessed pf k2 := by
  induction pf with
  | nil =>
      have h2 : ¬(k = k2) := fun hc => h hc.symm
      simp [setProcessed, lookupProcessed, List.find?, h2]
  | cons hd tl ih =>
      rcases hd with ⟨k3, v⟩
      by_cases h3 : k3 = k
      · simp only [setProcessed, if_pos h3]
        simp only [lookupProcessed]
        rw [List.find?_cons_of_neg, List.find?_cons_of_neg]
        · simp only [decide_eq_true_eq]
          exact fun hc => h (hc.symm.trans h3)
        · simp only [decide_eq_true_eq]
          exact fun hc => h hc.symm
      · simp only [setProcessed, if_neg h3]
        by_cases h4 : k3 = k2
        · simp only [lookupProcessed]
          rw [List.find?_cons_of_pos, List.find?_cons_of_pos]
          · simp [h4]
          · simp [h4]
        · simp only [lookupProcessed] at ih ⊢
          rw [List.find?_cons_of_neg, List.find?_cons_of_neg]
          · exact ih
          · simp [h4]
          · simp [h4]

/-- Registration of a new pair keeps every registered pair registered. -/
theorem pairRegistered_setProcessed
    (pf : List (String × List RawModule)) (k : String) (m : RawModule)
    (p : String × RawModule) (hp : pairRegistered pf p) :
    pairRegistered
      (setProcessed pf k ((lookupProcessed pf k).getD [] ++ [m])) p := by
  rcases p with ⟨pk, pm⟩
  by_cases h : pk = k
  · subst h
    simp only [pairRegistered] at hp ⊢
    rw [lookupProcessed_setProcessed_self]
    simp only [Option.getD_some]
    exact List.mem_append.mpr (Or.inl hp)
  · simp only [pairRegistered] at hp ⊢
    rw [lookupProcessed_setProcessed_ne _ _ _ _ h]
    exact hp

/-- The pair just registered is registered. -/
theorem pairRegistered_setProcessed_self
    (pf : List (String × List RawModule)) (k : String) (m : RawModule) :
    pairRegistered
      (setProcessed pf k ((lookupProcessed pf k).getD [] ++ [m]))
      (k, m) := by
  simp only [pairRegistered]
  rw [lookupProcessed_setProcessed_self]
  simp

/-- Joint invariant of the recursive collector: a successful run only adds
registrations to processedFiles, and it preserves well-formedness of the
ghost trace, so a pair never enters the trace twice. -/
theorem collect_process_wf (f : Nat) :
    (∀ (pd : String → Option (List DocDefinitionNode))
       (schemas : List (String × String)) (imports : List String)
       (sdl path : String) (st st2 : CollectState),
      collectDefinitions f pd schemas imports sdl path st = .ok st2 →
      (∀ p, pairRegistered st.processedFiles p →
          pairRegistered st2.processedFiles p)
      ∧ (WfState st → WfState st2))
    ∧ (∀ (pd : String → Option (List DocDefinitionNode))
       (schemas : List (String × String)) (ms : List RawModule)
       (key : String) (st st2 : CollectState),
      processModules f pd schemas ms key st = .ok st2 →
      (∀ p, pairRegistered st.processedFiles p →
          pairRegistered st2.processedFiles p)
      ∧ (WfState st → WfState st2)) := by
  induction f with
  | zero =>
      constructor
      · intro pd schemas imports sdl path st st2 h
        exact absurd h (by simp [collectDefinitions])
      · intro pd schemas ms key st st2 h
        cases ms with
        | nil =>
            have h2 : st = st2 := by simpa [processModules] using h
            subst h2
            exact ⟨fun p hp => hp, fun hwf => hwf⟩
        | cons m rest =>
            exact absurd h (by simp [processModules])
  | succ f ih =>
      obtain ⟨ihc, ihp⟩ := ih
      constructor
      · intro pd schemas imports sdl path st st2 h
        simp only [collectDefinitions] at h
        rcases hdoc : getDocumentFromSDL pd sdl with _ | docDefs
        · simp only [hdoc] at h
          exact absurd h (by simp)
        · simp only [hdoc] at h
          rcases halloc : allocDoc st.store docDefs with ⟨entries, store1⟩
          simp only [halloc] at h
          rcases hfilt : filterImportedDefinitions imports entries
              (st.allDefinitions ++ [filterTypeDefinitionsIdx entries])
              store1 with e1 | ⟨ctd, store2⟩
          · simp only [hfilt] at h
            exact absurd h (by simp)
          · simp only [hfilt] at h
            rcases hsdl : parseSDL sdl with e2 | rawModules
            · simp only [hsdl] at h
              exact absurd h (by simp)
            · simp only [hsdl] at h
              obtain ⟨mono, wf⟩ := ihp pd schemas rawModules path _ st2 h
              exact ⟨fun p hp => mono p hp, fun hwf => wf hwf⟩
      · intro pd schemas ms key st st2 h
        cases ms with
        | nil =>
            have h2 : st = st2 := by simpa [processModules] using h
            subst h2
            exact ⟨fun p hp => hp, fun hwf => hwf⟩
        | cons m rest =>
            simp only [processModules] at h
            by_cases hctn : ((lookupProcessed st.processedFiles key).getD
                []).contains m = true
            · rw [if_pos hctn] at h
              exact ihp pd schemas rest key st st2 h
            · rw [if_neg hctn] at h
              rcases hread : readSource schemas
                  (resolveModuleFilePath key m.fromTarget) with _ | sdl2
              · simp only [hread] at h
                exact absurd h (by simp)
              · simp only [hread] at h
                rcases hcd : collectDefinitions f pd schemas m.imports sdl2
                    (resolveModuleFilePath key m.fromTarget)
                    { st with
                      processedFiles := setProcessed st.processedFiles key
                        ((lookupProcessed st.processedFiles key).getD []
                          ++ [m])
                      trace := st.trace ++ [(key, m)] } with e3 | stMid
                · simp only [hcd] at h
                  exact absurd h (by simp)
                · simp only [hcd] at h
                  obtain ⟨mono1, wf1⟩ := ihc pd schemas m.imports sdl2
                    (resolveModuleFilePath key m.fromTarget) _ stMid hcd
                  obtain ⟨mono2, wf2⟩ := ihp pd schemas rest key stMid
                    st2 h
                  constructor
                  · intro p hp
                    exact mono2 p (mono1 p
                      (pairRegistered_setProcessed _ _ _ _ hp))
                  · intro hwf
                    obtain ⟨hnd, hreg⟩ := hwf
                    refine wf2 (wf1 ⟨?_, ?_⟩)
                    · have hnotin : (key, m) ∉ st.trace := by
                        intro hc
                        have h5 := hreg (key, m) hc
                        simp only [pairRegistered] at h5
                        apply hctn
                        simpa using h5
                      simp [List.nodup_append, hnd, hnotin]
                    · intro p hp
                      rcases List.mem_append.mp hp with h1 | h1
                      · exact pairRegistered_setProcessed _ _ _ _
                          (hreg p h1)
                      · have h6 : p = (key, m) := by simpa using h1
                        subst h6
                        exact pairRegistered_setProcessed_self _ _ _

/-- Claim C7, amended: the recursive collector processes every (canonical
source key, import directive) pair at most once: the ghost trace of a
successful run from the initial state repeats no pair, and every traced
pair is registered in processedFiles.  The termination conjunct of the
claim does not extend to the whole of importSchema, whose definition-pool
completion can exhaust every amount of fuel (see the counterexample). -/
theorem c7_pair_once_amended (fuel : Nat)
    (parseDoc : String → Option (List DocDefinitionNode))
    (schemas : List (String × String)) (imports : List String)
    (sdl path : String) (st2 : CollectState)
    (h : collectDefinitions fuel parseDoc schemas imports sdl path
        ⟨[], [], [], [], []⟩ = .ok st2) :
    st2.trace.Nodup
    ∧ ∀ p ∈ st2.trace,
        p.2 ∈ (lookupProcessed st2.processedFiles p.1).getD [] := by
  have hwf := ((collect_process_wf fuel).1 parseDoc schemas imports sdl
    path ⟨[], [], [], [], []⟩ st2 h).2
  have h2 := hwf ⟨by simp, by simp⟩
  exact ⟨h2.1, h2.2⟩

/-- Witness for the amended claim C7: a concrete two-file run processes
its single (key, directive) pair once and the trace repeats nothing. -/
theorem c7_pair_once_amended_witness :
    collectDefinitions 10 c3wParse c3wSchemas ["*"] c3wRoot "root"
        ⟨[], [], [], [], []⟩ = .ok c3wSt
    ∧ c3wSt.trace.Nodup := by
  refine ⟨by decide, ?_⟩
  exact (c7_pair_once_amended 10 c3wParse c3wSchemas ["*"] c3wRoot "root"
    c3wSt (by decide)).1

end GraphQLImport
